import Mathlib

/-!
# Verification of the note reconciliation core

A shallow embedding of the note merge/reconciliation logic of the
Practice-Foreign-Language Obsidian plugin (`src/wordNote.ts`, `src/utils.ts`),
together with proofs and refutations of the specified properties.

Strings are modelled as `List Char` (`Str`), so that every operation is a
structural (or fuel-bounded) computable function and concrete runs evaluate
inside the kernel.  Each definition mirrors one JavaScript/TypeScript function
of the source; the regular expressions of the source are compiled by hand into
explicit leftmost-match / lazy-extension searches over `List Char`.
-/

/-- Strings as lists of characters. -/
abbrev Str := List Char

/-- Coerce a Lean string literal to the `List Char` representation. -/
def lit (s : String) : Str := s.data

namespace WordNote

/-- The set of characters treated as whitespace by JavaScript `String.trim`
and by the regex class `\s`, restricted to the code points exercised by the
program (space, tab, LF, CR, VT, FF, NBSP, BOM). -/
def isJsSpace (c : Char) : Bool :=
  c == ' ' || c == '\t' || c == '\n' || c == '\r' ||
  c == Char.ofNat 11 || c == Char.ofNat 12 || c == Char.ofNat 160 ||
  c == Char.ofNat 65279

/-- JavaScript `String.prototype.trim`: strip whitespace from both ends. -/
def jsTrim (s : Str) : Str :=
  ((s.dropWhile isJsSpace).reverse.dropWhile isJsSpace).reverse

/-- `s.split('\n')`. Always returns at least one (possibly empty) line. -/
def splitOnNL : Str → List Str
  | [] => [[]]
  | c :: cs =>
    if c = '\n' then [] :: splitOnNL cs
    else
      match splitOnNL cs with
      | [] => [[c]]
      | l :: ls => (c :: l) :: ls

/-- `lines.join('\n')`. -/
def joinNL : List Str → Str
  | [] => []
  | [l] => l
  | l :: l2 :: ls => l ++ '\n' :: joinNL (l2 :: ls)

/-- `starts p s` iff `p` is a prefix of `s`. -/
def starts : Str → Str → Bool
  | [], _ => true
  | _ :: _, [] => false
  | p :: ps, c :: cs => p == c && starts ps cs

/-- Scanning loop for the leftmost occurrence of `pat`: `acc` holds the
characters already passed, in reverse. -/
def splitAtSubAux (pat : Str) (acc : Str) : Str → Option (Str × Str)
  | [] => if starts pat [] then some (acc.reverse, []) else none
  | c :: cs =>
    if starts pat (c :: cs) then some (acc.reverse, (c :: cs).drop pat.length)
    else splitAtSubAux pat (c :: acc) cs

/-- Leftmost occurrence of `pat` in a string: returns the part before the
match and the part after it (JS `indexOf` / leftmost regex alternative for a
literal pattern). -/
def splitAtSub? (pat : Str) (s : Str) : Option (Str × Str) :=
  splitAtSubAux pat [] s

/-- `s.includes(pat)` (substring test, literal pattern). -/
def containsSub (s pat : Str) : Bool := (splitAtSub? pat s).isSome

/-- Scanning loop for a multiline-anchored (`^...` with the `m` flag)
leftmost search: the Boolean records whether the current position is at the
start of a line, `acc` holds the characters already passed, in reverse. -/
def splitAtSubLSAux (pat : Str) : Bool → Str → Str → Option (Str × Str)
  | atLS, acc, s =>
    if atLS && starts pat s then some (acc.reverse, s.drop pat.length)
    else
      match s with
      | [] => none
      | c :: cs => splitAtSubLSAux pat (c == '\n') (c :: acc) cs

/-- Leftmost occurrence of `pat` at the start of a line. -/
def splitAtSubLS? (pat : Str) (s : Str) : Option (Str × Str) :=
  splitAtSubLSAux pat true [] s

/-- Scanning loop for `lazyEnd`: `acc` holds the body scanned so far, in
reverse. -/
def lazyEndAux (acc : Str) : Str → Str × Str
  | [] => (acc.reverse, [])
  | c :: cs =>
    if starts (lit "\n##") (c :: cs) then (acc.reverse, c :: cs)
    else lazyEndAux (c :: acc) cs

/-- The lazy tail `[\s\S]*?(?=\n##|$)` of the section regex built at line 70
of `src/wordNote.ts`, which carries no `m` flag, so its `$` matches only at
the end of the input: split the rest of the document into the shortest body
such that what follows is either the string end or a position whose next
characters are `\n##`. -/
def lazyEnd (s : Str) : Str × Str := lazyEndAux [] s

/-- The lazy tail `[\s\S]*?(?=\n##|$)` of the headword regex built at line
243 of `src/wordNote.ts`, which carries the `m` flag: there `$` also matches
immediately before every newline, which subsumes the `\n##` alternative, so
the shortest body extends exactly to the first line end — the matched body is
the first line after the header. -/
def lazyEndM (s : Str) : Str × Str :=
  (s.takeWhile (fun c => !(c == '\n')), s.dropWhile (fun c => !(c == '\n')))

/-- ECMAScript regex syntax characters.  The source interpolates the rendered
headword (line 243) and the section name (line 70) into the `RegExp`
constructor; a value containing none of these characters yields a pattern
that is valid (the constructor cannot throw) and that matches the value
literally, which is the fragment the splice models below embed. -/
def isRegexMeta (c : Char) : Bool :=
  (lit "^$\\.*+?()[]\x7b\x7d|").contains c

/-- A string free of regex syntax characters, so its interpolation into the
section regexes is exact under the literal splice models. -/
def regexSafe (s : Str) : Bool := s.all (fun c => !isRegexMeta c)

/-- A JavaScript value as it occurs in the frontmatter records of the source:
`undefined`, `null`, or a string. -/
inductive JValue where
  | undef : JValue
  | jnull : JValue
  | str : Str → JValue
  deriving DecidableEq, Repr

/-- JS property read `m[k]` on an object represented as an insertion-ordered
association list (absent key gives `undefined`, modelled as `none`). -/
def jlookup (m : List (Str × JValue)) (k : Str) : Option JValue :=
  match m with
  | [] => none
  | (k2, v) :: rest => if k2 = k then some v else jlookup rest k

/-- JS property write `m[k] = v`: overwrite in place if the key exists
(keeping its position), otherwise append. -/
def setKey (m : List (Str × JValue)) (k : Str) (v : JValue) : List (Str × JValue) :=
  match m with
  | [] => [(k, v)]
  | (k2, v2) :: rest => if k2 = k then (k2, v) :: rest else (k2, v2) :: setKey rest k v

/-- `\w` of JavaScript regexes. -/
def isWordChar (c : Char) : Bool :=
  (c ≥ 'a' && c ≤ 'z') || (c ≥ 'A' && c ≤ 'Z') || (c ≥ '0' && c ≤ '9') || c == '_'

/-- The replacement `value.replace(/^"(.*)"$/, '$1')` of
`parseExistingFrontmatter`: strip one layer of surrounding double quotes. -/
def stripOuterQuotes (v : Str) : Str :=
  if v.length ≥ 2 && v.head? == some '"' && v.getLast? == some '"' then
    (v.drop 1).dropLast
  else v

/-- One line of `parseExistingFrontmatter`: the match of
`/^(\w+):\s*(.*)$/` against a single line (which contains no `'\n'`).
`(.*)` cannot cross `\r` (or U+2028/U+2029), and `$` only matches at the very
end, so a line whose value part retains such a character does not match. -/
def parseFMLine (l : Str) : Option (Str × Str) :=
  let key := l.takeWhile isWordChar
  let rest := l.drop key.length
  if key ≠ [] ∧ rest.head? = some ':' then
    let v := (rest.drop 1).dropWhile isJsSpace
    if v.any (fun c => c == '\r' || c == Char.ofNat 8232 || c == Char.ofNat 8233) then
      none
    else some (key, stripOuterQuotes v)
  else none

/-- The accumulation loop of `parseExistingFrontmatter` over the split lines. -/
def parseLinesFM (ls : List Str) : List (Str × JValue) :=
  ls.foldl
    (fun acc l =>
      match parseFMLine l with
      | some kv => setKey acc kv.1 (JValue.str kv.2)
      | none => acc)
    []

/-- `parseExistingFrontmatter(frontmatterContent)` of `src/wordNote.ts`:
split on newlines, keep the lines matching `/^(\w+):\s*(.*)$/`, strip one
layer of surrounding quotes from each value. -/
def parseExistingFrontmatter (frontmatterContent : Str) : List (Str × JValue) :=
  parseLinesFM (splitOnNL frontmatterContent)

/-- The test applied by `mergeFrontmatter` to the existing value of a key:
overwrite exactly when the existing value is `null`, `""`, `"NOT_DEFINED"` or
`undefined` (a missing key also reads as `undefined`). -/
def isSentinelExisting (v : Option JValue) : Bool :=
  match v with
  | none => true
  | some JValue.undef => true
  | some JValue.jnull => true
  | some (JValue.str s) => s == [] || s == lit "NOT_DEFINED"

/-- `mergeFrontmatter(existingFrontmatter, newFrontmatter)` of
`src/wordNote.ts`: start from a copy of the existing record; for each key of
the incoming record whose value is neither `undefined` nor `null`, overwrite
when the existing value is sentinel (per `isSentinelExisting`), reading the
existing value always from the original existing record. -/
def mergeFrontmatter (existingFrontmatter newFrontmatter : List (Str × JValue)) :
    List (Str × JValue) :=
  newFrontmatter.foldl
    (fun acc kv =>
      if kv.2 ≠ JValue.undef ∧ kv.2 ≠ JValue.jnull then
        if isSentinelExisting (jlookup existingFrontmatter kv.1) then
          setKey acc kv.1 kv.2
        else acc
      else acc)
    existingFrontmatter

/-- Modelled from the spec: the serialization `yaml.dump(updatedFrontmatter,
{lineWidth: -1, quotingType: '"', forceQuotes: true, ...})` performed by
`updateFrontmatterContent` comes from the external `js-yaml` library, whose
source is not part of this repository.  Following §4.1 of the specification
("emits one `key: "value"` line per entry, with all scalars double-quoted,
no line wrapping, stable key order = insertion order") and §4.2 (entries whose
value is `undefined` are not emitted), an entry with a string value becomes
`key: "value"`, an `undefined` entry is skipped, and a `null` entry is emitted
as the unquoted YAML scalar `null`.  The result carries a trailing newline. -/
def dumpYaml (m : List (Str × JValue)) : Str :=
  m.foldr
    (fun kv acc =>
      match kv.2 with
      | JValue.undef => acc
      | JValue.jnull => kv.1 ++ lit ": null\n" ++ acc
      | JValue.str s => kv.1 ++ lit ": \"" ++ s ++ lit "\"\n" ++ acc)
    []

/-- The match of the regex `^---\n([\s\S]*?)\n---` against a document (as in
`updateFrontmatterContent`): if it starts
with `---\n`, the lazily shortest inner text followed by `\n---`.  Returns the
inner text and the total length of the match. -/
def matchFrontmatterBlock (content : Str) : Option (Str × Nat) :=
  if starts (lit "---\n") content then
    match splitAtSub? (lit "\n---") (content.drop 4) with
    | some (inner, _) => some (inner, 4 + inner.length + 4)
    | none => none
  else none

/-- `updateFrontmatterContent(existingContent, newFrontmatter)` of
`src/wordNote.ts`: merge into an existing frontmatter block when one is
matched (otherwise take the new record as-is), re-serialize, and re-attach the
trimmed remainder of the document after a blank line. -/
def updateFrontmatterContent (existingContent : Str)
    (newFrontmatter : List (Str × JValue)) : Str :=
  match matchFrontmatterBlock existingContent with
  | some (inner, matchLen) =>
    let existingFM := parseExistingFrontmatter inner
    let updated := mergeFrontmatter existingFM newFrontmatter
    lit "---\n" ++ jsTrim (dumpYaml updated) ++ lit "\n---\n\n" ++
      jsTrim (existingContent.drop matchLen)
  | none =>
    lit "---\n" ++ jsTrim (dumpYaml newFrontmatter) ++ lit "\n---\n\n" ++
      jsTrim existingContent

/-- `addOrUpdateSection(content, sectionName, newSectionContent)` of
`src/wordNote.ts`: the regex `## ${sectionName}\n[\s\S]*?(?=\n##|$)` (no `m`
flag) — leftmost occurrence of the literal header, lazily extended to just
before the next `\n##` or to the end — is replaced by the new section when
found; otherwise the new section is appended after a blank line.  The
interpolated `sectionName` is treated as a literal, which is exact for
`regexSafe` names; on other names the real constructor may throw or match
differently, a path outside this model (the program passes the literal
`'Grammar'` and the configured flashcards section name). -/
def addOrUpdateSection (content : Str) (sectionName : Str)
    (newSectionContent : Str) : Str :=
  let header := lit "## " ++ sectionName ++ ['\n']
  let sectionContent := header ++ newSectionContent
  match splitAtSub? header content with
  | some (pre, rest) => pre ++ sectionContent ++ (lazyEnd rest).2
  | none => content ++ lit "\n\n" ++ sectionContent

/-- JavaScript `String.prototype.toLowerCase` on one character, restricted to
the code points exercised by the program: ASCII, Latin-1 Supplement, Latin
Extended-A (which contains the Czech letters) and Cyrillic. -/
def jsToLower (c : Char) : Char :=
  let n := c.toNat
  if n ≥ 65 && n ≤ 90 then Char.ofNat (n + 32)
  else if n ≥ 0xC0 && n ≤ 0xDE && n ≠ 0xD7 then Char.ofNat (n + 32)
  else if n ≥ 0x100 && n ≤ 0x137 && n % 2 = 0 then Char.ofNat (n + 1)
  else if n ≥ 0x139 && n ≤ 0x148 && n % 2 = 1 then Char.ofNat (n + 1)
  else if n ≥ 0x14A && n ≤ 0x177 && n % 2 = 0 then Char.ofNat (n + 1)
  else if n = 0x178 then Char.ofNat 0xFF
  else if n ≥ 0x179 && n ≤ 0x17E && n % 2 = 1 then Char.ofNat (n + 1)
  else if n ≥ 0x410 && n ≤ 0x42F then Char.ofNat (n + 32)
  else if n ≥ 0x400 && n ≤ 0x40F then Char.ofNat (n + 80)
  else c

/-- `s.toLowerCase()`. -/
def mapToLower (s : Str) : Str := s.map jsToLower

/-- The Unicode letter class `\p{L}` of the tag regex, restricted to the
blocks exercised by the program (ASCII, Latin-1, Latin Extended-A, Cyrillic). -/
def jsIsLetter (c : Char) : Bool :=
  let n := c.toNat
  (n ≥ 65 && n ≤ 90) || (n ≥ 97 && n ≤ 122) ||
  (n ≥ 0xC0 && n ≤ 0xFF && n ≠ 0xD7 && n ≠ 0xF7) ||
  (n ≥ 0x100 && n ≤ 0x17F) || (n ≥ 0x400 && n ≤ 0x4FF)

/-- The Unicode digit class `\p{N}` of the tag regex, restricted to ASCII. -/
def jsIsDigit (c : Char) : Bool := c ≥ '0' && c ≤ '9'

/-- A character kept by the tag regex `[^\p{L}\p{N}]+`. -/
def isTagAlnum (c : Char) : Bool := jsIsLetter c || jsIsDigit c

/-- The global replacement `replace(/[^\p{L}\p{N}]+/gu, '_')`: every maximal
run of non-letter-non-digit characters becomes a single underscore (fuel is
the input length, which bounds the number of steps). -/
def collapseNonAlnumGo : Nat → Str → Str
  | 0, s => s
  | _ + 1, [] => []
  | fuel + 1, c :: cs =>
    if isTagAlnum c then c :: collapseNonAlnumGo fuel cs
    else '_' :: collapseNonAlnumGo fuel (cs.dropWhile (fun c2 => !isTagAlnum c2))

/-- See `collapseNonAlnumGo`. -/
def collapseNonAlnum (s : Str) : Str := collapseNonAlnumGo s.length s

/-- First half of the replacement `replace(/^_|_$/g, '')`: remove one
leading underscore. -/
def stripLeadU : Str → Str
  | '_' :: rest => rest
  | s => s

/-- Second half of the replacement `replace(/^_|_$/g, '')`: remove one
trailing underscore. -/
def stripTrailU (s : Str) : Str :=
  match s.getLast? with
  | some '_' => s.dropLast
  | _ => s

/-- The replacement `replace(/^_|_$/g, '')`: remove one leading and one
trailing underscore. -/
def stripEdgeUnderscores (s : Str) : Str := stripTrailU (stripLeadU s)

/-- The replacement `replace(/^#+\s*/, '')`: strip one leading run of `#`
characters together with the whitespace that follows it. -/
def stripHashPrefix (s : Str) : Str :=
  match s with
  | '#' :: _ => (s.dropWhile (· == '#')).dropWhile isJsSpace
  | _ => s

/-- `formatForTag(title)` of `src/utils.ts`: trim, strip a leading heading
marker, trim again, collapse every maximal run of non-letter-non-digit
characters to one underscore, lowercase, strip one leading/trailing
underscore. -/
def formatForTag (title : Str) : Str :=
  let trimmedTitle := jsTrim (stripHashPrefix (jsTrim title))
  stripEdgeUnderscores (mapToLower (collapseNonAlnum trimmedTitle))

/-- The word record handed to the reconciler (the `wordData` object built by
the callers in `main.ts`): each field is an optional string, `none` standing
for the JavaScript `undefined`. -/
structure WordData where
  slovo : Option Str
  preklad : Option Str
  vyraz : Option Str
  prekladVyrazu : Option Str
  titleTag : Option Str
  partOfSpeech : Option Str
  deriving Repr

/-- Modelled from the spec: the `CzechWordAnalysis` record produced by the
external analyzer lives in `src/czechGrammarAnalyzer.ts`, which is not among
the provided sources; §3 of the specification lists its relevant fields
(`partOfSpeechFull`, `partOfSpeechType`, verb-only `conjugationGroup` /
`conjugationPattern` / `isIrregular`, noun-only `genderFull` / `gender` /
`declensionPattern`, and `formattedResult`), named here as the use sites in
`src/wordNote.ts` access them.  Each field is an optional string. -/
structure CzechWordAnalysis where
  partOfSpeechType : Option Str
  partOfSpeechFull : Option Str
  verbConjugationGroup : Option Str
  verbVzor : Option Str
  isIrregularVerb : Option Str
  nounRod : Option Str
  nounRodFull : Option Str
  nounVzor : Option Str
  formattedResult : Option Str
  deriving Repr

/-- JavaScript truthiness of an optional string: `undefined` and `""` are
falsy, everything else yields the string. -/
def truthyStr (o : Option Str) : Option Str :=
  match o with
  | some s => if s = [] then none else some s
  | none => none

/-- Rendering of a possibly-undefined string inside a template literal:
JavaScript prints `undefined` for the missing value. -/
def renderOpt (o : Option Str) : Str :=
  match o with
  | some s => s
  | none => lit "undefined"

/-- The object literal `partOfSpeechMap` of `getPartOfSpeech`
(`src/wordNote.ts`), in insertion order. -/
def partOfSpeechMap : List (Str × Str) :=
  [(lit "slov", lit "Sloveso"),
   (lit "pod", lit "Podstatné jméno"),
   (lit "příd", lit "Přídavné jméno"),
   (lit "přísl", lit "Příslovce"),
   (lit "čís", lit "Číslovka"),
   (lit "předl", lit "Předložka"),
   (lit "záj", lit "Zájmeno"),
   (lit "spoj", lit "Spojka"),
   (lit "část", lit "Částice"),
   (lit "citos", lit "Citoslovce")]

/-- The array literal `additionalChecks` of `getPartOfSpeech`
(`src/wordNote.ts`).  The value paired with the key `част` reproduces the
source bytes exactly: it begins with the Cyrillic letters `Част` followed by
the Latin letters `ice` (unlike the properly Czech `Částice` paired with
`part`). -/
def additionalChecks : List (Str × Str) :=
  [(lit "verb", lit "Sloveso"),
   (lit "глаг", lit "Sloveso"),
   (lit "noun", lit "Podstatné jméno"),
   (lit "сущ", lit "Podstatné jméno"),
   (lit "подст", lit "Podstatné jméno"),
   (lit "adj", lit "Přídavné jméno"),
   (lit "прил", lit "Přídavné jméno"),
   (lit "adv", lit "Příslovce"),
   (lit "нар", lit "Příslovce"),
   (lit "num", lit "Číslovka"),
   (lit "числ", lit "Číslovka"),
   (lit "prep", lit "Předložka"),
   (lit "пред", lit "Předložka"),
   (lit "pron", lit "Zájmeno"),
   (lit "мест", lit "Zájmeno"),
   (lit "conj", lit "Spojka"),
   (lit "союз", lit "Spojka"),
   (lit "part", lit "Částice"),
   (lit "част", lit "Частice"),
   (lit "interj", lit "Citoslovce"),
   (lit "межд", lit "Citoslovce")]

/-- One keyword-table pass of `getPartOfSpeech`: first entry whose
(lowercased) key is a substring of the lowercased raw hint wins. -/
def lookupKeyword : List (Str × Str) → Str → Option Str
  | [], _ => none
  | (k, v) :: rest, wordType =>
    if containsSub wordType (mapToLower k) then some v else lookupKeyword rest wordType

/-- The fallback branch of `getPartOfSpeech`: lowercase the raw hint
(`wordData.partOfSpeech || ''`), try `partOfSpeechMap` then
`additionalChecks`, and default to `NOT_DEFINED`. -/
def getPartOfSpeechFallback (wordData : WordData) : Str :=
  let wordType := mapToLower (wordData.partOfSpeech.getD [])
  match lookupKeyword partOfSpeechMap wordType with
  | some v => v
  | none =>
    match lookupKeyword additionalChecks wordType with
    | some v => v
    | none => lit "NOT_DEFINED"

/-- `getPartOfSpeech(wordData, czechWordGrammar)` of `src/wordNote.ts`:
return `czechWordGrammar?.partOfSpeechType` when truthy, otherwise match the
raw part-of-speech hint against the two keyword tables. -/
def getPartOfSpeech (wordData : WordData) (czechWordGrammar : Option CzechWordAnalysis) :
    Str :=
  match czechWordGrammar with
  | some g =>
    match truthyStr g.partOfSpeechType with
    | some t => t
    | none => getPartOfSpeechFallback wordData
  | none => getPartOfSpeechFallback wordData

/-- The theme computation `tableHeader.replace(/^#+\s*/, '').trim()` used by
`createFrontmatter` and the main-section template. -/
def stripThemeHeader (tableHeader : Str) : Str := jsTrim (stripHashPrefix tableHeader)

/-- Lift an optional string into a `JValue` (`undefined` for `none`). -/
def jv (o : Option Str) : JValue :=
  match o with
  | some s => JValue.str s
  | none => JValue.undef

/-- `createFrontmatter(wordData, czechWordGrammar, tableHeader)` of
`src/wordNote.ts`: the base record in literal order, extended with the
verb-only or noun-only fields exactly when the resolved part of speech is
`Sloveso` resp. `Podstatné jméno` and a grammar analysis is present. -/
def createFrontmatter (wordData : WordData) (czechWordGrammar : Option CzechWordAnalysis)
    (tableHeader : Str) : List (Str × JValue) :=
  let partOfSpeech := getPartOfSpeech wordData czechWordGrammar
  let base : List (Str × JValue) :=
    [(lit "slovo", jv wordData.slovo),
     (lit "translation", jv wordData.preklad),
     (lit "theme", JValue.str (stripThemeHeader tableHeader)),
     (lit "phrase", jv wordData.vyraz),
     (lit "phrase_translation", jv wordData.prekladVyrazu),
     (lit "partOfSpeech", JValue.str partOfSpeech),
     (lit "partOfSpeechVerbose", jv (czechWordGrammar.bind (·.partOfSpeechFull)))]
  if partOfSpeech = lit "Sloveso" ∧ czechWordGrammar.isSome then
    base ++
      [(lit "verbConjugationGroup", jv (czechWordGrammar.bind (·.verbConjugationGroup))),
       (lit "vzor", jv (czechWordGrammar.bind (·.verbVzor))),
       (lit "isIrregularVerb", jv (czechWordGrammar.bind (·.isIrregularVerb)))]
  else if partOfSpeech = lit "Podstatné jméno" ∧ czechWordGrammar.isSome then
    base ++
      [(lit "nounRod", jv (czechWordGrammar.bind (·.nounRod))),
       (lit "nounRodFull", jv (czechWordGrammar.bind (·.nounRodFull))),
       (lit "vzor", jv (czechWordGrammar.bind (·.nounVzor)))]
  else base

/-- `formatPartOfSpeechAndPattern(czechWordGrammar)` of `src/wordNote.ts`:
empty for a missing analysis; otherwise `partOfSpeechFull` (the string
`undefined` when that field is absent, as JavaScript string concatenation
renders it), extended with the grammar pattern when one is truthy, plus a
newline. -/
def formatPartOfSpeechAndPattern (czechWordGrammar : Option CzechWordAnalysis) : Str :=
  match czechWordGrammar with
  | none => []
  | some g =>
    let base := renderOpt g.partOfSpeechFull
    let mid :=
      match truthyStr g.nounVzor with
      | some nv => lit ". Grammar pattern is: " ++ nv
      | none =>
        match truthyStr g.verbVzor with
        | some vv => lit ". Grammar pattern is: " ++ vv
        | none => []
    base ++ mid ++ ['\n']

/-- `createFlashcardDecks(wordData, czechWordGrammar, type)` of
`src/wordNote.ts`.  The deck-kind parameter (annotated
`'czwords' | 'czphrase'` in the source and erased at runtime) is a plain
string here.  Tag order is exactly that of the source: theme tag,
part-of-speech tag (when the resolved part of speech is truthy), grammar
pattern tag, verb-group tag, noun-gender tag (each when the grammar field is
truthy), and the `all` tag. -/
def createFlashcardDecks (wordData : WordData)
    (czechWordGrammar : Option CzechWordAnalysis) (type : Str) : List Str :=
  let basePath := lit "#flashcards/" ++ type
  let partOfSpeech := getPartOfSpeech wordData czechWordGrammar
  let themeTag := basePath ++ lit "/theme/" ++
    (match wordData.titleTag with
     | some tt => formatForTag tt
     | none => lit "undefined")
  let tags :=
    if partOfSpeech ≠ [] then
      [themeTag, basePath ++ ['/'] ++ mapToLower (formatForTag partOfSpeech)]
    else [themeTag]
  let vzorTags :=
    if (truthyStr (czechWordGrammar.bind (·.verbVzor))).isSome ||
       (truthyStr (czechWordGrammar.bind (·.nounVzor))).isSome then
      let vzorType :=
        if partOfSpeech = lit "Sloveso" then lit "sloveso_vzor"
        else lit "podstatne_jmeno_vzor"
      let vzorVal :=
        match truthyStr (czechWordGrammar.bind (·.verbVzor)) with
        | some vv => vv
        | none => renderOpt (czechWordGrammar.bind (·.nounVzor))
      [basePath ++ ['/'] ++ vzorType ++ ['/'] ++ vzorVal]
    else []
  let groupTags :=
    match truthyStr (czechWordGrammar.bind (·.verbConjugationGroup)) with
    | some gr => [basePath ++ lit "/verbgroup/" ++ gr]
    | none => []
  let rodTags :=
    match truthyStr (czechWordGrammar.bind (·.nounRod)) with
    | some rod => [basePath ++ lit "/nounrod/" ++ rod]
    | none => []
  tags ++ vzorTags ++ groupTags ++ rodTags ++ [basePath ++ lit "/all"]

/-- `tags.join(' ')`. -/
def joinSpace : List Str → Str
  | [] => []
  | [t] => t
  | t :: t2 :: ts => t ++ ' ' :: joinSpace (t2 :: ts)

/-- `createFlashcardsSection(wordData, czechWordGrammar)` of
`src/wordNote.ts`: the template literal with its exact indentation (four
spaces before each content line, a four-space separator line, and a trailing
four-space line). -/
def createFlashcardsSection (wordData : WordData)
    (czechWordGrammar : Option CzechWordAnalysis) : Str :=
  let wordTags := createFlashcardDecks wordData czechWordGrammar (lit "czwords")
  let phraseTags := createFlashcardDecks wordData czechWordGrammar (lit "czphrase")
  lit "\n    " ++ joinSpace wordTags ++
  lit "\n    " ++ renderOpt wordData.slovo ++ lit " !speak[" ++
    renderOpt wordData.slovo ++ lit "] ::: " ++ renderOpt wordData.preklad ++
  lit "\n    \n    " ++ joinSpace phraseTags ++
  lit "\n    " ++ renderOpt wordData.vyraz ++ lit " !speak[" ++
    renderOpt wordData.vyraz ++ lit "] ::: " ++ renderOpt wordData.prekladVyrazu ++
  lit "\n    "

/-- Hexadecimal digit (uppercase), for `encodeURIComponent`. -/
def hexDigit (n : Nat) : Char :=
  if n < 10 then Char.ofNat (48 + n) else Char.ofNat (55 + n)

/-- UTF-8 bytes of a character. -/
def utf8Bytes (c : Char) : List Nat :=
  let n := c.toNat
  if n < 0x80 then [n]
  else if n < 0x800 then [0xC0 + n / 64, 0x80 + n % 64]
  else if n < 0x10000 then [0xE0 + n / 4096, 0x80 + (n / 64) % 64, 0x80 + n % 64]
  else [0xF0 + n / 262144, 0x80 + (n / 4096) % 64, 0x80 + (n / 64) % 64, 0x80 + n % 64]

/-- The characters `encodeURIComponent` leaves unescaped. -/
def isUnreservedURI (c : Char) : Bool :=
  (c ≥ 'A' && c ≤ 'Z') || (c ≥ 'a' && c ≤ 'z') || (c ≥ '0' && c ≤ '9') ||
  c == '-' || c == '_' || c == '.' || c == '!' || c == '~' || c == '*' ||
  c == Char.ofNat 39 || c == '(' || c == ')'

/-- JavaScript `encodeURIComponent`: percent-encode the UTF-8 bytes of every
character outside the unreserved set.  The real function throws `URIError`
on lone surrogates; `Str` is a list of Unicode scalar values, which excludes
lone surrogates, so on the strings representable here the function is total
and this embedding is exact. -/
def encodeURIComponent (s : Str) : Str :=
  s.foldr
    (fun c acc =>
      (if isUnreservedURI c then [c]
       else (utf8Bytes c).foldr
         (fun b a => '%' :: hexDigit (b / 16) :: hexDigit (b % 16) :: a) []) ++ acc)
    []

/-- The `mainContent` template literal of `unifiedNoteContent`
(`src/wordNote.ts` lines 236–240): H1 heading with the headword, theme
backlink, part-of-speech-and-pattern line, and the two literal input-field
placeholder lines. -/
def mainContent (wordData : WordData) (czechWordGrammar : Option CzechWordAnalysis)
    (tableHeader : Str) : Str :=
  lit "# " ++ renderOpt wordData.slovo ++
  lit "\nTheme note: [[" ++ stripThemeHeader tableHeader ++ lit "]]\n" ++
  formatPartOfSpeechAndPattern czechWordGrammar ++
  lit "\nPart Of Speech: `INPUT[partOfSpeechSelect][:partOfSpeech]` Noun gender: `INPUT[nounGenderSelect][:nounRod]`\nGrammar pattern is: `INPUT[grammarPatternSelect][:vzor]`"

/-- The headword-section upsert of `unifiedNoteContent` (lines 242–248):
the regex `^## ${wordData.slovo}\n[\s\S]*?(?=\n##|$)` carries the `m` flag,
so `^` matches at every line start and the `$` of the lookahead matches
before every newline — the leftmost line-start occurrence of the header,
extended to the first line end (`lazyEndM`), is replaced by `mainContent`
when found; otherwise `'\n' + mainContent` is appended.  The interpolated
headword is treated as a literal, exact for `regexSafe` renderings; on other
renderings the real constructor may throw or match differently, a path
outside this model. -/
def upsertMainSection (content : Str) (slovoRendered : Str) (main : Str) : Str :=
  let header := lit "## " ++ slovoRendered ++ ['\n']
  match splitAtSubLS? header content with
  | some (pre, rest) => pre ++ main ++ (lazyEndM rest).2
  | none => content ++ '\n' :: main

/-- The grammar-section content of `unifiedNoteContent` (lines 255–257),
including the four trailing spaces after the dictionary link present in the
source. -/
def grammarContent (wordData : WordData)
    (czechWordGrammar : Option CzechWordAnalysis) : Str :=
  lit "link to prirucka: https://prirucka.ujc.cas.cz/?slovo=" ++
    encodeURIComponent (renderOpt wordData.slovo) ++
  lit "\nlink to slovnik: https://slovnik.seznam.cz/preklad/cesky_anglicky/" ++
    encodeURIComponent (renderOpt wordData.slovo) ++ lit "    \n" ++
  (match truthyStr (czechWordGrammar.bind (·.formattedResult)) with
   | some fr => fr
   | none => [])

/-- The global replacement of the regex `---\n+` (flag `g`) by `---\n`
performed at line 262 of `src/wordNote.ts`:
scan left to right; at each occurrence of `---` followed by at least one
newline, keep `---`, collapse the newline run to one, and continue after it.
The fuel (the input length) bounds the number of steps, each of which
consumes at least one character. -/
def collapseDashesGo : Nat → Str → Str
  | 0, s => s
  | _ + 1, [] => []
  | fuel + 1, c :: cs =>
    if starts (lit "---\n") (c :: cs) then
      lit "---\n" ++ collapseDashesGo fuel ((cs.drop 3).dropWhile (· == '\n'))
    else c :: collapseDashesGo fuel cs

/-- See `collapseDashesGo`. -/
def collapseDashes (s : Str) : Str := collapseDashesGo s.length s

/-- The final normalization of `unifiedNoteContent` (lines 261–265): collapse
newline runs after `---`, then trim every line. -/
def finalNormalize (content : Str) : Str :=
  joinNL ((splitOnNL (collapseDashes content)).map jsTrim)

/-- `unifiedNoteContent(existingContent, wordData, czechWordGrammar,
tableHeader, flashcardsSection)` of `src/wordNote.ts`: frontmatter update,
headword-section upsert, flashcards-section upsert, grammar-section upsert,
and final normalization. -/
def unifiedNoteContent (existingContent : Option Str) (wordData : WordData)
    (czechWordGrammar : Option CzechWordAnalysis) (tableHeader : Str)
    (flashcardsSection : Str) : Str :=
  let content := match existingContent with
    | some s => s
    | none => []
  let content := updateFrontmatterContent content
    (createFrontmatter wordData czechWordGrammar tableHeader)
  let content := upsertMainSection content (renderOpt wordData.slovo)
    (mainContent wordData czechWordGrammar tableHeader)
  let content := addOrUpdateSection content flashcardsSection
    (createFlashcardsSection wordData czechWordGrammar)
  let content := addOrUpdateSection content (lit "Grammar")
    (grammarContent wordData czechWordGrammar)
  finalNormalize content

/-- `createNoteContent(wordData, czechWordGrammar, tableHeader,
flashcardsSection)` of `src/wordNote.ts`: reconciliation with no existing
content. -/
def createNoteContent (wordData : WordData)
    (czechWordGrammar : Option CzechWordAnalysis) (tableHeader : Str)
    (flashcardsSection : Str) : Str :=
  unifiedNoteContent none wordData czechWordGrammar tableHeader flashcardsSection

end WordNote

namespace WordNote

set_option maxRecDepth 1000000

/-- A concrete word record exercising the reconciler: headword `pes`,
translation `dog`, phrase `ten pes`, phrase translation `that dog`, theme tag
`Zvirata`, no raw part-of-speech hint. -/
def pesWord : WordData :=
  { slovo := some (lit "pes"), preklad := some (lit "dog"),
    vyraz := some (lit "ten pes"), prekladVyrazu := some (lit "that dog"),
    titleTag := some (lit "Zvirata"), partOfSpeech := none }

/-- C1, counterexample.  Reconciliation is not idempotent: with word record
`pesWord`, grammar `null`, table header `## Zvirata` and flashcards section
name `Flashcards`, feeding the output of `unifiedNoteContent` with no
existing text back in as the existing text does not reproduce it (the two
blank lines left between the flashcards body and the `## Grammar` heading by
the appending first run shrink to one when the section is spliced in place on
the second run). -/
theorem unifiedNoteContent_not_idempotent :
    unifiedNoteContent
      (some (unifiedNoteContent none pesWord none (lit "## Zvirata") (lit "Flashcards")))
      pesWord none (lit "## Zvirata") (lit "Flashcards") ≠
    unifiedNoteContent none pesWord none (lit "## Zvirata") (lit "Flashcards") := by
  decide

/-- C1, amended.  At the same inputs, the first output carries two blank
lines between the flashcards body and the `## Grammar` heading and the second
output only one — that is the whole divergence — and reconciliation
stabilizes from the second application on: reconciling the second output
reproduces it textually. -/
theorem unifiedNoteContent_stabilizes :
    containsSub
      (unifiedNoteContent none pesWord none (lit "## Zvirata") (lit "Flashcards"))
      (lit "that dog\n\n\n## Grammar") = true ∧
    containsSub
      (unifiedNoteContent
        (some (unifiedNoteContent none pesWord none (lit "## Zvirata") (lit "Flashcards")))
        pesWord none (lit "## Zvirata") (lit "Flashcards"))
      (lit "that dog\n\n## Grammar") = true ∧
    unifiedNoteContent
      (some (unifiedNoteContent
        (some (unifiedNoteContent none pesWord none (lit "## Zvirata") (lit "Flashcards")))
        pesWord none (lit "## Zvirata") (lit "Flashcards")))
      pesWord none (lit "## Zvirata") (lit "Flashcards") =
    unifiedNoteContent
      (some (unifiedNoteContent none pesWord none (lit "## Zvirata") (lit "Flashcards")))
      pesWord none (lit "## Zvirata") (lit "Flashcards") := by
  refine ⟨by decide, by decide, by decide⟩

/-- `Char.ofNat` on a scalar value below the surrogate range. -/
lemma charOfNat_toNat (n : Nat) (h : n < 55296) : (Char.ofNat n).toNat = n := by
  have hv : n.isValidChar := Or.inl h
  simp [Char.ofNat, hv, Char.ofNatAux, Char.toNat, UInt32.toNat, BitVec.toNat_ofNatLt]

/-- Lowercasing only produces an underscore from an underscore. -/
lemma jsToLower_eq_underscore {c : Char} (h : jsToLower c = '_') : c = '_' := by
  have h95 : ('_').toNat = 95 := rfl
  unfold jsToLower at h
  dsimp only [] at h
  split_ifs at h with h1 h2 h3 h4 h5 h6 h7 h8 h9
  · simp only [Bool.and_eq_true, decide_eq_true_eq] at h1
    have ht := congrArg Char.toNat h
    rw [charOfNat_toNat _ (by omega), h95] at ht
    omega
  · simp only [Bool.and_eq_true, decide_eq_true_eq] at h2
    have ht := congrArg Char.toNat h
    rw [charOfNat_toNat _ (by omega), h95] at ht
    omega
  · simp only [Bool.and_eq_true, decide_eq_true_eq] at h3
    have ht := congrArg Char.toNat h
    rw [charOfNat_toNat _ (by omega), h95] at ht
    omega
  · simp only [Bool.and_eq_true, decide_eq_true_eq] at h4
    have ht := congrArg Char.toNat h
    rw [charOfNat_toNat _ (by omega), h95] at ht
    omega
  · simp only [Bool.and_eq_true, decide_eq_true_eq] at h5
    have ht := congrArg Char.toNat h
    rw [charOfNat_toNat _ (by omega), h95] at ht
    omega
  · exact absurd h (by decide)
  · simp only [Bool.and_eq_true, decide_eq_true_eq] at h7
    have ht := congrArg Char.toNat h
    rw [charOfNat_toNat _ (by omega), h95] at ht
    omega
  · simp only [Bool.and_eq_true, decide_eq_true_eq] at h8
    have ht := congrArg Char.toNat h
    rw [charOfNat_toNat _ (by omega), h95] at ht
    omega
  · simp only [Bool.and_eq_true, decide_eq_true_eq] at h9
    have ht := congrArg Char.toNat h
    rw [charOfNat_toNat _ (by omega), h95] at ht
    omega
  · exact h

/-- Adjacent characters are never both underscores. -/
def NeU (a b : Char) : Prop := a ≠ '_' ∨ b ≠ '_'

/-- An underscore is not a letter or digit. -/
lemma not_isTagAlnum_underscore : isTagAlnum '_' = false := by decide

/-- Dropping a prefix shortens a list or keeps its length. -/
lemma lengthDropWhileLe (p : Char → Bool) (l : Str) :
    (l.dropWhile p).length ≤ l.length := by
  induction l with
  | nil => simp [List.dropWhile]
  | cons a as ih =>
    simp only [List.dropWhile]
    split
    · exact Nat.le_succ_of_le ih
    · exact Nat.le_refl _

/-- The head surviving `dropWhile p` does not satisfy `p`. -/
lemma head_dropWhile_false (p : Char → Bool) :
    ∀ (l : Str) (c : Char), (l.dropWhile p).head? = some c → p c = false := by
  intro l
  induction l with
  | nil => intro c h; simp [List.dropWhile] at h
  | cons a as ih =>
    intro c h
    rw [List.dropWhile_cons] at h
    by_cases hp : p a
    · rw [if_pos hp] at h
      exact ih c h
    · rw [if_neg hp] at h
      simp only [List.head?_cons, Option.some.injEq] at h
      subst h
      exact Bool.of_not_eq_true hp

/-- Head of the collapsed string: the first character when it is a letter or
digit, an underscore otherwise. -/
lemma collapseGo_head (fuel : Nat) (s : Str) (h : s.length ≤ fuel) :
    (collapseNonAlnumGo fuel s).head? =
      s.head?.map (fun c => if isTagAlnum c then c else '_') := by
  cases fuel with
  | zero =>
    have : s = [] := List.eq_nil_of_length_eq_zero (Nat.le_zero.mp h)
    subst this
    rfl
  | succ n =>
    cases s with
    | nil => rfl
    | cons c cs =>
      by_cases hc : isTagAlnum c <;> simp [collapseNonAlnumGo, hc]

/-- The collapsed string never contains two adjacent underscores. -/
lemma collapseGo_chain (fuel : Nat) : ∀ (s : Str), s.length ≤ fuel →
    List.Chain' NeU (collapseNonAlnumGo fuel s) := by
  induction fuel with
  | zero =>
    intro s h
    have : s = [] := List.eq_nil_of_length_eq_zero (Nat.le_zero.mp h)
    subst this
    exact List.chain'_nil
  | succ n ih =>
    intro s h
    cases s with
    | nil => exact List.chain'_nil
    | cons c cs =>
      have hlen : cs.length ≤ n := Nat.le_of_succ_le_succ (by simpa using h)
      by_cases hc : isTagAlnum c
      · rw [show collapseNonAlnumGo (n + 1) (c :: cs) = c :: collapseNonAlnumGo n cs by
          simp [collapseNonAlnumGo, hc]]
        rw [List.chain'_cons']
        refine ⟨?_, ih cs hlen⟩
        intro y _
        left
        intro hce
        rw [hce] at hc
        exact absurd not_isTagAlnum_underscore (by simp [hc])
      · rw [show collapseNonAlnumGo (n + 1) (c :: cs) =
            '_' :: collapseNonAlnumGo n (cs.dropWhile (fun c2 => !isTagAlnum c2)) by
          simp [collapseNonAlnumGo, hc]]
        have hlen2 : (cs.dropWhile (fun c2 => !isTagAlnum c2)).length ≤ n :=
          Nat.le_trans (lengthDropWhileLe _ cs) hlen
        rw [List.chain'_cons']
        refine ⟨?_, ih _ hlen2⟩
        intro y hy
        right
        rw [collapseGo_head n _ hlen2] at hy
        cases hhd : (cs.dropWhile (fun c2 => !isTagAlnum c2)).head? with
        | none => rw [hhd] at hy; simp at hy
        | some c2 =>
          rw [hhd] at hy
          have hc2 : (fun c2 => !isTagAlnum c2) c2 = false := head_dropWhile_false _ cs c2 hhd
          simp only [Bool.not_eq_false'] at hc2
          simp only [Option.map, Option.mem_def, Option.some.injEq, if_pos hc2] at hy
          subst hy
          intro hce
          rw [hce] at hc2
          exact absurd not_isTagAlnum_underscore (by simp [hc2])

/-- Lowercasing preserves the no-adjacent-underscore invariant. -/
lemma chain_mapToLower {s : Str} (h : List.Chain' NeU s) :
    List.Chain' NeU (mapToLower s) := by
  rw [mapToLower, List.chain'_map]
  refine h.imp ?_
  intro a b hab
  cases hab with
  | inl ha => exact Or.inl (fun he => ha (jsToLower_eq_underscore he))
  | inr hb => exact Or.inr (fun he => hb (jsToLower_eq_underscore he))

/-- The second half of `stripEdgeUnderscores`: dropping one trailing
underscore from a string with no adjacent underscores whose head is not an
underscore leaves both ends underscore-free. -/
lemma stripTrailing_no_edge (s1 : Str) (hch : List.Chain' NeU s1)
    (hhd : s1.head? ≠ some '_') (hlast : s1.getLast? = some '_') :
    s1.dropLast.head? ≠ some '_' ∧ s1.dropLast.getLast? ≠ some '_' := by
  have hs1d : s1.dropLast ++ ['_'] = s1 := List.dropLast_append_getLast? '_' hlast
  have hrev : s1.reverse = '_' :: s1.dropLast.reverse := by
    conv_lhs => rw [← hs1d]
    rw [List.reverse_append]
    rfl
  have hchr : List.Chain' (flip NeU) s1.reverse := by
    rw [List.chain'_reverse]
    exact hch.imp (fun a b hab => hab)
  have htail : ∀ y, (s1.dropLast.reverse).head? = some y → y ≠ '_' := by
    intro y hy
    rw [hrev] at hchr
    have := (List.chain'_cons'.mp hchr).1 y hy
    cases this with
    | inl h1 => exact h1
    | inr h2 => exact absurd rfl h2
  constructor
  · intro hcontr
    cases s1 with
    | nil => simp at hlast
    | cons a as =>
      cases as with
      | nil =>
        simp at hlast
        subst hlast
        simp at hhd
      | cons b bs =>
        have : (a :: b :: bs).dropLast = a :: (b :: bs).dropLast := rfl
        rw [this] at hcontr
        simp only [List.head?_cons, Option.some.injEq] at hcontr
        exact hhd (by simp [hcontr])
  · intro hcontr
    have : (s1.dropLast.reverse).head? = some '_' := by
      rw [List.head?_reverse]
      exact hcontr
    exact htail '_' this rfl

/-- Stripping one leading underscore from a string with no adjacent
underscores leaves the invariant and an underscore-free head. -/
lemma stripLeadU_spec (s : Str) (h : List.Chain' NeU s) :
    List.Chain' NeU (stripLeadU s) ∧ (stripLeadU s).head? ≠ some '_' := by
  unfold stripLeadU
  split
  · next rest heq =>
    refine ⟨(List.chain'_cons'.mp h).2, ?_⟩
    intro hh
    have := (List.chain'_cons'.mp h).1 '_' hh
    simp [NeU] at this
  · next hne =>
    refine ⟨h, ?_⟩
    intro hh
    cases s with
    | nil => simp at hh
    | cons a rest =>
      simp only [List.head?_cons, Option.some.injEq] at hh
      subst hh
      exact hne rest rfl

/-- Stripping one trailing underscore from a string with no adjacent
underscores whose head is not an underscore leaves both ends
underscore-free. -/
lemma stripTrailU_spec (s1 : Str) (hch : List.Chain' NeU s1)
    (hhd : s1.head? ≠ some '_') :
    (stripTrailU s1).head? ≠ some '_' ∧ (stripTrailU s1).getLast? ≠ some '_' := by
  unfold stripTrailU
  split
  · next heq => exact stripTrailing_no_edge s1 hch hhd heq
  · next hne =>
    refine ⟨hhd, ?_⟩
    intro hcontr
    exact hne hcontr

/-- After stripping one leading and one trailing underscore from a string
with no adjacent underscores, neither end is an underscore. -/
lemma stripEdge_no_edge (s : Str) (h : List.Chain' NeU s) :
    (stripEdgeUnderscores s).head? ≠ some '_' ∧
    (stripEdgeUnderscores s).getLast? ≠ some '_' := by
  rw [stripEdgeUnderscores]
  obtain ⟨hch, hhd⟩ := stripLeadU_spec s h
  exact stripTrailU_spec _ hch hhd

/-- The output of the slug never begins or ends with an underscore. -/
lemma formatForTag_no_edge (s : Str) :
    (formatForTag s).head? ≠ some '_' ∧ (formatForTag s).getLast? ≠ some '_' := by
  rw [formatForTag]
  apply stripEdge_no_edge
  apply chain_mapToLower
  exact collapseGo_chain _ _ (Nat.le_refl _)

/-- C4, counterexample.  The slug keeps the Czech diacritics (the Unicode
letter class includes them), so `slug("Čísla a barvy!")` is not the
ASCII-folded `cisla_a_barvy` asserted by the claim. -/
theorem formatForTag_not_ascii_folded :
    formatForTag (lit "Čísla a barvy!") ≠ lit "cisla_a_barvy" := by decide

/-- C4, amended.  `slug("Čísla a barvy!") = "čísla_a_barvy"` (diacritics
preserved as letters, lowercased, punctuation collapsed to single
underscores), `slug("## Téma") = "téma"` (heading marker stripped first),
and for every input the result has no leading and no trailing underscore. -/
theorem formatForTag_spec :
    formatForTag (lit "Čísla a barvy!") = lit "čísla_a_barvy" ∧
    formatForTag (lit "## Téma") = lit "téma" ∧
    ∀ s : Str, (formatForTag s).head? ≠ some '_' ∧
      (formatForTag s).getLast? ≠ some '_' :=
  ⟨by decide, by decide, formatForTag_no_edge⟩

/-- A noun word record for the flashcard-deck scenario: headword `kniha`,
theme tag `Téma`. -/
def knihaWord : WordData :=
  { slovo := some (lit "kniha"), preklad := none, vyraz := none,
    prekladVyrazu := none, titleTag := some (lit "Téma"), partOfSpeech := none }

/-- The grammar analysis of the flashcard-deck scenario: a noun with gender
`ženský` and declension pattern `Žena`. -/
def knihaGrammar : CzechWordAnalysis :=
  { partOfSpeechType := some (lit "Podstatné jméno"),
    partOfSpeechFull := some (lit "Podstatné jméno, rod ženský"),
    verbConjugationGroup := none, verbVzor := none, isIrregularVerb := none,
    nounRod := some (lit "ženský"), nounRodFull := some (lit "rod ženský"),
    nounVzor := some (lit "Žena"), formattedResult := none }

/-- C5, counterexample.  For the noun scenario the produced tag list is not
the one the claim lists: the part-of-speech tag keeps the Czech diacritics
(`podstatné_jméno`), while the claim asserts the ASCII `podstatne_jmeno`
(the word deck kind is named `czwords` in the code; the claim's deck kind
`words` is the specification's rendering of it). -/
theorem createFlashcardDecks_not_claimed_list :
    createFlashcardDecks knihaWord (some knihaGrammar) (lit "czwords") ≠
      [lit "#flashcards/czwords/theme/téma",
       lit "#flashcards/czwords/podstatne_jmeno",
       lit "#flashcards/czwords/podstatne_jmeno_vzor/Žena",
       lit "#flashcards/czwords/nounrod/ženský",
       lit "#flashcards/czwords/all"] := by decide

/-- C5, amended.  For the noun scenario the tag list is exactly theme tag,
`podstatné_jméno` part-of-speech tag (diacritics preserved),
`podstatne_jmeno_vzor/Žena` pattern tag, `nounrod/ženský` gender tag and the
`all` tag, in that order; and the part-of-speech tag is present even when the
part of speech is unresolved (it is then the tag `not_defined`, since
`NOT_DEFINED` is a truthy string). -/
theorem createFlashcardDecks_spec :
    createFlashcardDecks knihaWord (some knihaGrammar) (lit "czwords") =
      [lit "#flashcards/czwords/theme/téma",
       lit "#flashcards/czwords/podstatné_jméno",
       lit "#flashcards/czwords/podstatne_jmeno_vzor/Žena",
       lit "#flashcards/czwords/nounrod/ženský",
       lit "#flashcards/czwords/all"] ∧
    createFlashcardDecks
      { slovo := none, preklad := none, vyraz := none, prekladVyrazu := none,
        titleTag := some (lit "T"), partOfSpeech := some (lit "xyz") }
      none (lit "czwords") =
      [lit "#flashcards/czwords/theme/t",
       lit "#flashcards/czwords/not_defined",
       lit "#flashcards/czwords/all"] :=
  ⟨by decide, by decide⟩

/-- The ten part-of-speech categories of the plugin (the option list of its
own `partOfSpeechSelect` input template, and the values of the keyword
tables up to the one mixed-script entry). -/
def partOfSpeechCategories : List Str :=
  [lit "Sloveso", lit "Podstatné jméno", lit "Přídavné jméno", lit "Příslovce",
   lit "Číslovka", lit "Předložka", lit "Zájmeno", lit "Spojka",
   lit "Částice", lit "Citoslovce"]

/-- C6, code bug.  For the raw hint `частица` (Russian for "particle") and no
grammar analysis, `getPartOfSpeech` falls through to the keyword entry
`част`, whose table value is the mixed-script string `Частice` (Cyrillic
`Част` followed by Latin `ice`) — not the Czech category `Částice`, not any
of the ten categories, and not `NOT_DEFINED`.  The claim's assertion that the
result is always one of the ten categories or `NOT_DEFINED` is the evident
intent, and the table value a typo. -/
theorem getPartOfSpeech_mixed_script_bug :
    getPartOfSpeech
      { slovo := none, preklad := none, vyraz := none, prekladVyrazu := none,
        titleTag := none, partOfSpeech := some (lit "частица") } none =
      lit "Частice" ∧
    lit "Частice" ∉ partOfSpeechCategories ∧
    lit "Частice" ≠ lit "NOT_DEFINED" ∧
    lit "Частice" ≠ lit "Částice" := by decide

/-- `splitOnNL` always yields at least one line. -/
lemma splitOnNL_ne_nil (s : Str) : splitOnNL s ≠ [] := by
  cases s with
  | nil => simp [splitOnNL]
  | cons c cs =>
    rw [splitOnNL]
    split
    · simp
    · split <;> simp

/-- Lines produced by `splitOnNL` contain no newline. -/
lemma no_nl_of_mem_splitOnNL : ∀ (s : Str), ∀ l ∈ splitOnNL s, '\n' ∉ l := by
  intro s
  induction s with
  | nil =>
    intro l hl
    simp [splitOnNL] at hl
    simp [hl]
  | cons c cs ih =>
    intro l hl
    rw [splitOnNL] at hl
    by_cases hc : c = '\n'
    · rw [if_pos hc] at hl
      cases hl with
      | head => simp
      | tail _ h => exact ih l h
    · rw [if_neg hc] at hl
      cases hsp : splitOnNL cs with
      | nil => exact absurd hsp (splitOnNL_ne_nil cs)
      | cons l1 ls =>
        rw [hsp] at hl
        cases hl with
        | head =>
          intro hmem
          cases hmem with
          | head => exact hc rfl
          | tail _ h => exact ih l1 (by rw [hsp]; exact List.mem_cons_self l1 ls) h
        | tail _ h =>
          exact ih l (by rw [hsp]; exact List.mem_cons_of_mem l1 h)

/-- Splitting a newline-free line gives back that single line. -/
lemma splitOnNL_no_nl {l : Str} (h : '\n' ∉ l) : splitOnNL l = [l] := by
  induction l with
  | nil => rfl
  | cons c cs ih =>
    rw [splitOnNL]
    have hc : ¬ c = '\n' := fun he => h (by rw [he]; exact List.mem_cons_self _ _)
    rw [if_neg hc, ih (fun hm => h (List.mem_cons_of_mem c hm))]

/-- Splitting a newline-free line followed by a newline and a remainder
peels off that line. -/
lemma splitOnNL_append {l : Str} (rest : Str) (h : '\n' ∉ l) :
    splitOnNL (l ++ '\n' :: rest) = l :: splitOnNL rest := by
  induction l with
  | nil => simp [splitOnNL]
  | cons c cs ih =>
    have hc : ¬ c = '\n' := fun he => h (by rw [he]; exact List.mem_cons_self _ _)
    rw [List.cons_append, splitOnNL, if_neg hc,
      ih (fun hm => h (List.mem_cons_of_mem c hm))]

/-- Splitting the newline-join of newline-free lines recovers the lines. -/
lemma splitOnNL_joinNL : ∀ (ls : List Str), ls ≠ [] → (∀ l ∈ ls, '\n' ∉ l) →
    splitOnNL (joinNL ls) = ls := by
  intro ls
  induction ls with
  | nil => intro h; exact absurd rfl h
  | cons l ls2 ih =>
    intro _ hnl
    cases ls2 with
    | nil =>
      rw [joinNL]
      exact splitOnNL_no_nl (hnl l (List.mem_cons_self _ _))
    | cons l2 ls3 =>
      rw [joinNL, splitOnNL_append _ (hnl l (List.mem_cons_self _ _))]
      rw [ih (by simp) (fun x hx => hnl x (List.mem_cons_of_mem l hx))]

/-- Characters of the trimmed string come from the original. -/
lemma mem_of_mem_jsTrim {c : Char} {l : Str} (h : c ∈ jsTrim l) : c ∈ l := by
  rw [jsTrim] at h
  rw [List.mem_reverse] at h
  have h2 := (List.dropWhile_sublist (l := (l.dropWhile isJsSpace).reverse)
    (p := isJsSpace)).mem h
  rw [List.mem_reverse] at h2
  exact (List.dropWhile_sublist (l := l) (p := isJsSpace)).mem h2

/-- `dropWhile` is the identity when the head does not satisfy the
predicate. -/
lemma dropWhile_eq_self_of_head (p : Char → Bool) (l : Str)
    (h : ∀ c, l.head? = some c → p c = false) : l.dropWhile p = l := by
  cases l with
  | nil => rfl
  | cons a as =>
    rw [List.dropWhile_cons, h a rfl]
    simp

/-- A nonempty `dropWhile` keeps the last element. -/
lemma getLast_dropWhile (p : Char → Bool) :
    ∀ (l : Str), l.dropWhile p ≠ [] → (l.dropWhile p).getLast? = l.getLast? := by
  intro l
  induction l with
  | nil => intro h; exact absurd rfl h
  | cons a as ih =>
    intro hne
    rw [List.dropWhile_cons]
    by_cases hp : p a
    · rw [if_pos hp]
      rw [List.dropWhile_cons, if_pos hp] at hne
      rw [ih hne]
      have hasne : as ≠ [] := by
        intro he
        rw [he] at hne
        exact hne rfl
      cases as with
      | nil => exact absurd rfl hasne
      | cons b bs => simp [List.getLast?_cons_cons]
    · rw [if_neg hp]

/-- The head of the trimmed string is not whitespace. -/
lemma jsTrim_head (l : Str) :
    ∀ c, (jsTrim l).head? = some c → isJsSpace c = false := by
  intro c hc
  rw [jsTrim, List.head?_reverse] at hc
  have hne : (l.dropWhile isJsSpace).reverse.dropWhile isJsSpace ≠ [] := by
    intro he
    rw [he] at hc
    simp at hc
  rw [getLast_dropWhile _ _ hne] at hc
  rw [← List.head?_reverse, List.reverse_reverse] at hc
  exact head_dropWhile_false _ _ c hc

/-- The last character of the trimmed string is not whitespace. -/
lemma jsTrim_getLast (l : Str) :
    ∀ c, (jsTrim l).getLast? = some c → isJsSpace c = false := by
  intro c hc
  rw [jsTrim, ← List.head?_reverse, List.reverse_reverse] at hc
  exact head_dropWhile_false _ _ c hc

/-- Strings whose two ends are not whitespace are fixed by `jsTrim`. -/
lemma jsTrim_eq_self (l : Str)
    (h1 : ∀ c, l.head? = some c → isJsSpace c = false)
    (h2 : ∀ c, l.getLast? = some c → isJsSpace c = false) : jsTrim l = l := by
  rw [jsTrim, dropWhile_eq_self_of_head _ _ h1,
    dropWhile_eq_self_of_head _ _ (by
      intro c hc
      rw [List.head?_reverse] at hc
      exact h2 c hc),
    List.reverse_reverse]

/-- Trimming is idempotent. -/
lemma jsTrim_idem (l : Str) : jsTrim (jsTrim l) = jsTrim l :=
  jsTrim_eq_self _ (jsTrim_head l) (jsTrim_getLast l)

/-- Every line of the final normalization pass is trimmed on both ends. -/
lemma finalNormalize_lines (content : Str) :
    ∀ l ∈ splitOnNL (finalNormalize content), jsTrim l = l := by
  intro l hl
  rw [finalNormalize] at hl
  rw [splitOnNL_joinNL _ (by
      intro he
      exact splitOnNL_ne_nil _ (List.map_eq_nil_iff.mp he))
    (by
      intro x hx
      rw [List.mem_map] at hx
      obtain ⟨x0, hx0, hx0e⟩ := hx
      intro hmem
      rw [← hx0e] at hmem
      exact no_nl_of_mem_splitOnNL _ x0 hx0 (mem_of_mem_jsTrim hmem))] at hl
  rw [List.mem_map] at hl
  obtain ⟨l0, _, hl0e⟩ := hl
  rw [← hl0e]
  exact jsTrim_idem l0

/-- C10.  Every line of the text returned by `unifiedNoteContent` carries no
leading and no trailing whitespace: the final pass trims both ends of every
line, so any indentation present in preserved sections of the input is gone
from the output. -/
theorem unifiedNoteContent_lines_trimmed (existingContent : Option Str)
    (wordData : WordData) (czechWordGrammar : Option CzechWordAnalysis)
    (tableHeader flashcardsSection : Str) :
    ∀ l ∈ splitOnNL (unifiedNoteContent existingContent wordData czechWordGrammar
        tableHeader flashcardsSection), jsTrim l = l := by
  intro l hl
  exact finalNormalize_lines _ l hl

/-- C10, witness: applied to the concrete reconciliation of `pesWord`, the
line `# pes` of the output is its own trim. -/
theorem unifiedNoteContent_lines_trimmed_witness :
    jsTrim (lit "# pes") = lit "# pes" :=
  unifiedNoteContent_lines_trimmed none pesWord none (lit "## Zvirata")
    (lit "Flashcards") (lit "# pes") (by decide)

/-- A successful prefix test decomposes the string. -/
lemma starts_decomp : ∀ (p s : Str), starts p s = true → s = p ++ s.drop p.length := by
  intro p
  induction p with
  | nil => intro s _; simp
  | cons a ps ih =>
    intro s hs
    cases s with
    | nil => simp [starts] at hs
    | cons c cs =>
      rw [starts, Bool.and_eq_true, beq_iff_eq] at hs
      obtain ⟨hac, hps⟩ := hs
      subst hac
      simpa using ih cs hps

/-- The prefix test succeeds on an explicit decomposition. -/
lemma starts_append (p t : Str) : starts p (p ++ t) = true := by
  induction p with
  | nil => rfl
  | cons a ps ih => simpa [starts] using ih

/-- The scanning loop only succeeds on genuine occurrences. -/
lemma splitAtSubAux_decomp (p : Str) :
    ∀ (s acc pre rest : Str), splitAtSubAux p acc s = some (pre, rest) →
      acc.reverse ++ s = pre ++ p ++ rest := by
  intro s
  induction s with
  | nil =>
    intro acc pre rest h
    rw [splitAtSubAux] at h
    by_cases hp : starts p [] = true
    · rw [if_pos hp, Option.some.injEq, Prod.mk.injEq] at h
      obtain ⟨h1, h2⟩ := h
      cases p with
      | nil => simp [← h1, ← h2]
      | cons a ps => simp [starts] at hp
    · rw [if_neg hp] at h
      exact absurd h (by simp)
  | cons c cs ih =>
    intro acc pre rest h
    rw [splitAtSubAux] at h
    by_cases hp : starts p (c :: cs) = true
    · rw [if_pos hp, Option.some.injEq, Prod.mk.injEq] at h
      obtain ⟨h1, h2⟩ := h
      rw [← h1, ← h2]
      rw [List.append_assoc]
      congr 1
      exact starts_decomp p (c :: cs) hp
    · rw [if_neg hp] at h
      have := ih (c :: acc) pre rest h
      simpa using this

/-- `splitAtSub?` only succeeds on genuine occurrences. -/
lemma splitAtSub_decomp {p s pre rest : Str}
    (h : splitAtSub? p s = some (pre, rest)) : s = pre ++ p ++ rest := by
  simpa using splitAtSubAux_decomp p s [] pre rest h

/-- The scanning loop cannot fail on a string containing the pattern. -/
lemma splitAtSubAux_isSome (p : Str) :
    ∀ (x : Str) (acc y : Str), (splitAtSubAux p acc (x ++ p ++ y)).isSome := by
  intro x
  induction x with
  | nil =>
    intro acc y
    rw [List.nil_append]
    cases hpy : p ++ y with
    | nil =>
      have hp : p = [] := by cases p <;> simp_all
      have hy : y = [] := by subst hp; simpa using hpy
      subst hp
      subst hy
      simp [splitAtSubAux, starts]
    | cons c cs =>
      have hst : starts p (c :: cs) = true := by rw [← hpy]; exact starts_append p y
      simp only [splitAtSubAux, hst, if_true]
      simp
  | cons c x' ih =>
    intro acc y
    have hgoal : (c :: x') ++ p ++ y = c :: (x' ++ p ++ y) := by simp
    rw [hgoal, splitAtSubAux]
    split
    · simp
    · exact ih (c :: acc) y

/-- A string of the shape `x ++ p ++ y` contains `p`. -/
lemma containsSub_decomp (x p y : Str) : containsSub (x ++ p ++ y) p = true := by
  rw [containsSub, splitAtSub?]
  exact splitAtSubAux_isSome p x [] y

/-- A string containing `p` has the shape `x ++ p ++ y`. -/
lemma decomp_of_containsSub {s p : Str} (h : containsSub s p = true) :
    ∃ x y, s = x ++ p ++ y := by
  rw [containsSub] at h
  cases hsp : splitAtSub? p s with
  | none => rw [hsp] at h; simp at h
  | some pr => exact ⟨pr.1, pr.2, splitAtSub_decomp (by rw [hsp])⟩

/-- Containment extends to the left. -/
lemma containsSub_append_left {t p : Str} (a : Str) (h : containsSub t p = true) :
    containsSub (a ++ t) p = true := by
  obtain ⟨x, y, hxy⟩ := decomp_of_containsSub h
  rw [hxy, ← List.append_assoc, ← List.append_assoc]
  rw [List.append_assoc (a ++ x)]
  rw [← List.append_assoc]
  exact containsSub_decomp (a ++ x) p y

/-- Containment extends to the right. -/
lemma containsSub_append_right {t p : Str} (a : Str) (h : containsSub t p = true) :
    containsSub (t ++ a) p = true := by
  obtain ⟨x, y, hxy⟩ := decomp_of_containsSub h
  rw [hxy, List.append_assoc (x ++ p) y a]
  exact containsSub_decomp x p (y ++ a)

/-- Containment extends under `cons`. -/
lemma containsSub_cons {t p : Str} (c : Char) (h : containsSub t p = true) :
    containsSub (c :: t) p = true :=
  containsSub_append_left [c] h

/-- The lazy-end scan decomposes its input. -/
lemma lazyEndAux_decomp : ∀ (s acc : Str),
    acc.reverse ++ s = (lazyEndAux acc s).1 ++ (lazyEndAux acc s).2 := by
  intro s
  induction s with
  | nil => intro acc; simp [lazyEndAux]
  | cons c cs ih =>
    intro acc
    rw [lazyEndAux]
    by_cases hp : starts (lit "\n##") (c :: cs) = true
    · rw [if_pos hp]
    · rw [if_neg hp]
      have := ih (c :: acc)
      simpa using this

/-- `lazyEnd` decomposes its input into body and tail. -/
lemma lazyEnd_decomp (s : Str) : s = (lazyEnd s).1 ++ (lazyEnd s).2 := by
  simpa using lazyEndAux_decomp s []

/-- C3, amended.  The section splice itself preserves all content outside the
matched span byte-for-byte: when the header is found, the document splits as
`pre ++ header ++ mid ++ tail` and the result is `pre ++ header ++ newBody ++
tail`; when it is not found, the result is the document followed by a blank
line and the new section.  The final normalization pass applied afterwards by
the reconciler trims leading AND trailing whitespace on every line (and
collapses newline runs after `---`), so every line it emits is trimmed on
both ends. -/
theorem addOrUpdateSection_frame :
    (∀ content sectionName newSectionContent : Str,
      (∃ pre mid tail,
        content = pre ++ (lit "## " ++ sectionName ++ ['\n']) ++ mid ++ tail ∧
        addOrUpdateSection content sectionName newSectionContent =
          pre ++ (lit "## " ++ sectionName ++ ['\n']) ++ newSectionContent ++ tail) ∨
      addOrUpdateSection content sectionName newSectionContent =
        content ++ lit "\n\n" ++ (lit "## " ++ sectionName ++ ['\n']) ++ newSectionContent) ∧
    (∀ content : Str, ∀ l ∈ splitOnNL (finalNormalize content), jsTrim l = l) := by
  constructor
  · intro content sectionName newSectionContent
    simp only [addOrUpdateSection]
    cases h : splitAtSub? (lit "## " ++ sectionName ++ ['\n']) content with
    | some pr =>
      obtain ⟨pre, rest⟩ := pr
      left
      refine ⟨pre, (lazyEnd rest).1, (lazyEnd rest).2, ?_, ?_⟩
      · have h1 : content = pre ++ (lit "## " ++ sectionName ++ ['\n']) ++ rest :=
          splitAtSub_decomp h
        conv_lhs => rw [h1, lazyEnd_decomp rest]
        simp [List.append_assoc]
      · simp [List.append_assoc]
    | none =>
      right
      simp [List.append_assoc]
  · exact finalNormalize_lines

/-- A document with a `## Grammar` section and an unrecognized `## Notes`
section whose text is indented. -/
def notesDoc : Str :=
  lit "---\nx: \"1\"\n---\n## Grammar\nold\n\n## Notes\n  indented note"

/-- The normalization pass as the claim words it: trim only TRAILING
whitespace on every line. -/
def trimTrailingOnly (s : Str) : Str :=
  joinNL ((splitOnNL s).map (fun l => (l.reverse.dropWhile isJsSpace).reverse))

/-- C3, counterexample.  Upserting `## Grammar` on `notesDoc` and running the
reconciler's normalization does not merely trim trailing whitespace: the
indented line of the untouched `## Notes` section loses its leading
whitespace, so the text of the other section is altered beyond the claimed
exception. -/
theorem addOrUpdateSection_normalization_alters_notes :
    finalNormalize (addOrUpdateSection notesDoc (lit "Grammar") (lit "newgrammar")) ≠
      trimTrailingOnly (addOrUpdateSection notesDoc (lit "Grammar") (lit "newgrammar")) ∧
    containsSub (trimTrailingOnly (addOrUpdateSection notesDoc (lit "Grammar")
      (lit "newgrammar"))) (lit "\n  indented note") = true ∧
    containsSub (finalNormalize (addOrUpdateSection notesDoc (lit "Grammar")
      (lit "newgrammar"))) (lit "\n  indented note") = false ∧
    containsSub (finalNormalize (addOrUpdateSection notesDoc (lit "Grammar")
      (lit "newgrammar"))) (lit "\nindented note") = true := by
  refine ⟨by decide, by decide, by decide, by decide⟩

/-- C3, witness: the frame theorem applied to the trimming of the line
` abc ` inside the normalization of the single-line document ` abc `. -/
theorem addOrUpdateSection_frame_witness : jsTrim (lit "abc") = lit "abc" :=
  addOrUpdateSection_frame.2 (lit " abc ") (lit "abc") (by decide)

/-- Writing a key makes it readable. -/
lemma jlookup_setKey_self (m : List (Str × JValue)) (k : Str) (v : JValue) :
    jlookup (setKey m k v) k = some v := by
  induction m with
  | nil => simp [setKey, jlookup]
  | cons kv rest ih =>
    obtain ⟨k2, v2⟩ := kv
    rw [setKey]
    by_cases hk : k2 = k
    · rw [if_pos hk, jlookup, if_pos hk]
    · rw [if_neg hk, jlookup, if_neg hk]
      exact ih

/-- Writing a key leaves the other keys unchanged. -/
lemma jlookup_setKey_other (m : List (Str × JValue)) (k : Str) (v : JValue)
    (k' : Str) (h : k ≠ k') : jlookup (setKey m k v) k' = jlookup m k' := by
  induction m with
  | nil => simp [setKey, jlookup, h]
  | cons kv rest ih =>
    obtain ⟨k2, v2⟩ := kv
    rw [setKey]
    by_cases hk : k2 = k
    · rw [if_pos hk, jlookup, jlookup]
      subst hk
      rw [if_neg h, if_neg h]
    · rw [if_neg hk, jlookup, jlookup]
      by_cases hk' : k2 = k'
      · rw [if_pos hk', if_pos hk']
      · rw [if_neg hk', if_neg hk']
        exact ih

/-- A key absent from the key list reads as `undefined`. -/
lemma jlookup_eq_none (m : List (Str × JValue)) (k : Str)
    (h : k ∉ m.map Prod.fst) : jlookup m k = none := by
  induction m with
  | nil => rfl
  | cons kv rest ih =>
    rw [jlookup]
    rw [List.map_cons, List.mem_cons] at h
    push_neg at h
    rw [if_neg (fun he => h.1 he.symm)]
    exact ih h.2

/-- The frontmatter-merge policy exactly as the specification words it: for a
key of the incoming record whose value is neither `undefined` nor `null`, the
merged value is the incoming one precisely when the existing value is absent,
`null`, the empty string or `"NOT_DEFINED"`; in every other case the merged
value is the existing one. -/
def mergeLookupSpec (existing incoming : List (Str × JValue)) (k : Str) :
    Option JValue :=
  match jlookup incoming k with
  | some v =>
    if v ≠ JValue.undef ∧ v ≠ JValue.jnull ∧
        isSentinelExisting (jlookup existing k) = true then some v
    else jlookup existing k
  | none => jlookup existing k

/-- The merge fold, with the accumulator generalized: looking up any key in
the result is decided by the incoming record (checked against the fixed
existing record `e`) with the accumulator as fallback. -/
lemma mergeFold_lookup (e : List (Str × JValue)) :
    ∀ (i acc : List (Str × JValue)) (k : Str), (i.map Prod.fst).Nodup →
      jlookup (i.foldl (fun acc kv =>
          if kv.2 ≠ JValue.undef ∧ kv.2 ≠ JValue.jnull then
            if isSentinelExisting (jlookup e kv.1) then setKey acc kv.1 kv.2 else acc
          else acc) acc) k =
        (match jlookup i k with
         | some v =>
           if v ≠ JValue.undef ∧ v ≠ JValue.jnull ∧
               isSentinelExisting (jlookup e k) = true then some v
           else jlookup acc k
         | none => jlookup acc k) := by
  intro i
  induction i with
  | nil => intro acc k _; simp [jlookup]
  | cons kv rest ih =>
    intro acc k hnd
    obtain ⟨k1, v1⟩ := kv
    rw [List.map_cons, List.nodup_cons] at hnd
    obtain ⟨hk1, hndr⟩ := hnd
    rw [List.foldl_cons]
    rw [ih _ k hndr]
    by_cases hk : k1 = k
    · subst hk
      have hrest : jlookup rest k1 = none := jlookup_eq_none rest k1 hk1
      rw [hrest]
      have hhead : jlookup ((k1, v1) :: rest) k1 = some v1 := by
        rw [jlookup, if_pos rfl]
      rw [hhead]
      simp only []
      by_cases hgood : v1 ≠ JValue.undef ∧ v1 ≠ JValue.jnull
      · rw [if_pos hgood]
        by_cases hsent : isSentinelExisting (jlookup e k1) = true
        · rw [if_pos hsent, if_pos ⟨hgood.1, hgood.2, hsent⟩]
          exact jlookup_setKey_self acc k1 v1
        · rw [if_neg hsent, if_neg (fun hc => hsent hc.2.2)]
      · rw [if_neg hgood, if_neg (fun hc => hgood ⟨hc.1, hc.2.1⟩)]
    · have hhead : jlookup ((k1, v1) :: rest) k = jlookup rest k := by
        rw [jlookup, if_neg hk]
      rw [hhead]
      have hacc : jlookup (if v1 ≠ JValue.undef ∧ v1 ≠ JValue.jnull then
          if isSentinelExisting (jlookup e k1) then setKey acc k1 v1 else acc
          else acc) k = jlookup acc k := by
        split
        · split
          · exact jlookup_setKey_other acc k1 v1 k hk
          · rfl
        · rfl
      cases jlookup rest k with
      | none => simp only []; rw [hacc]
      | some v => simp only []; rw [hacc]

/-- C2.  `mergeFrontmatter` is the fill-only merge: for every pair of records
(the incoming one without duplicate keys, as JavaScript objects are), every
key reads according to the specification's policy (`mergeLookupSpec`); in
particular merging existing `partOfSpeech: "Sloveso"` with incoming
`partOfSpeech: "Podstatné jméno"` keeps `"Sloveso"`, while an existing
`"NOT_DEFINED"` becomes `"Podstatné jméno"`. -/
theorem mergeFrontmatter_fill_only (existingFrontmatter newFrontmatter : List (Str × JValue))
    (hnodup : (newFrontmatter.map Prod.fst).Nodup) :
    (∀ k, jlookup (mergeFrontmatter existingFrontmatter newFrontmatter) k =
      mergeLookupSpec existingFrontmatter newFrontmatter k) ∧
    mergeFrontmatter [(lit "partOfSpeech", JValue.str (lit "Sloveso"))]
        [(lit "partOfSpeech", JValue.str (lit "Podstatné jméno"))] =
      [(lit "partOfSpeech", JValue.str (lit "Sloveso"))] ∧
    mergeFrontmatter [(lit "partOfSpeech", JValue.str (lit "NOT_DEFINED"))]
        [(lit "partOfSpeech", JValue.str (lit "Podstatné jméno"))] =
      [(lit "partOfSpeech", JValue.str (lit "Podstatné jméno"))] := by
  refine ⟨?_, by decide, by decide⟩
  intro k
  rw [mergeFrontmatter, mergeLookupSpec]
  exact mergeFold_lookup existingFrontmatter newFrontmatter existingFrontmatter k hnodup

/-- C2, witness: the pointwise characterization applied to a concrete pair of
records at the key `b` (a fresh key of the incoming record). -/
theorem mergeFrontmatter_fill_only_witness :
    jlookup (mergeFrontmatter [(lit "a", JValue.str (lit "x"))]
      [(lit "a", JValue.str (lit "y")), (lit "b", JValue.str (lit "z"))]) (lit "b") =
    mergeLookupSpec [(lit "a", JValue.str (lit "x"))]
      [(lit "a", JValue.str (lit "y")), (lit "b", JValue.str (lit "z"))] (lit "b") :=
  (mergeFrontmatter_fill_only [(lit "a", JValue.str (lit "x"))]
    [(lit "a", JValue.str (lit "y")), (lit "b", JValue.str (lit "z"))]
    (by decide)).1 (lit "b")

/-- The prefix kept by `takeWhile` satisfies the predicate throughout. -/
lemma takeWhile_all (p : Char → Bool) : ∀ (l : Str), (l.takeWhile p).all p = true := by
  intro l
  induction l with
  | nil => rfl
  | cons a as ih =>
    rw [List.takeWhile_cons]
    by_cases hp : p a
    · rw [if_pos hp]
      simp [hp, ih]
    · rw [if_neg hp]
      rfl

/-- A parsed frontmatter line yields a nonempty all-word-character key. -/
lemma parseFMLine_key {l : Str} {kv : Str × Str} (h : parseFMLine l = some kv) :
    kv.1 ≠ [] ∧ kv.1.all isWordChar = true := by
  simp only [parseFMLine] at h
  split_ifs at h with h1 h2
  rw [Option.some.injEq] at h
  subst h
  exact ⟨h1.1, takeWhile_all isWordChar l⟩

/-- Keys of `setKey` come from the written key or the original record. -/
lemma mem_setKey_keys (m : List (Str × JValue)) (k : Str) (v : JValue) :
    ∀ kv' ∈ setKey m k v, kv'.1 = k ∨ kv'.1 ∈ m.map Prod.fst := by
  induction m with
  | nil =>
    intro kv' h
    rw [setKey] at h
    rcases List.mem_singleton.mp h with h1
    rw [h1]
    exact Or.inl rfl
  | cons kv2 rest ih =>
    intro kv' h
    obtain ⟨k2, v2⟩ := kv2
    rw [setKey] at h
    by_cases hk : k2 = k
    · rw [if_pos hk] at h
      rcases List.mem_cons.mp h with h1 | h2
      · rw [h1]; exact Or.inl hk
      · right
        rw [List.map_cons, List.mem_cons]
        right
        exact List.mem_map_of_mem Prod.fst h2
    · rw [if_neg hk] at h
      rcases List.mem_cons.mp h with h1 | h2
      · rw [h1]
        right
        rw [List.map_cons]
        exact List.mem_cons_self _ _
      · rcases ih kv' h2 with h3 | h4
        · exact Or.inl h3
        · right
          rw [List.map_cons, List.mem_cons]
          exact Or.inr h4

/-- Invariant of the parsing fold: every key in the accumulated record is a
nonempty run of word characters. -/
lemma parseLinesFM_fold_keys : ∀ (ls : List Str) (acc : List (Str × JValue)),
    (∀ kv ∈ acc, kv.1 ≠ [] ∧ kv.1.all isWordChar = true) →
    ∀ kv ∈ ls.foldl (fun acc l =>
        match parseFMLine l with
        | some kv => setKey acc kv.1 (JValue.str kv.2)
        | none => acc) acc,
      kv.1 ≠ [] ∧ kv.1.all isWordChar = true := by
  intro ls
  induction ls with
  | nil => intro acc hacc kv h; exact hacc kv h
  | cons l ls' ih =>
    intro acc hacc kv h
    rw [List.foldl_cons] at h
    cases hline : parseFMLine l with
    | none =>
      rw [hline] at h
      exact ih acc hacc kv h
    | some kv0 =>
      rw [hline] at h
      refine ih _ ?_ kv h
      intro kv1 h1
      rcases mem_setKey_keys acc kv0.1 (JValue.str kv0.2) kv1 h1 with h2 | h3
      · rw [h2]
        exact parseFMLine_key hline
      · obtain ⟨e, he, hef⟩ := List.mem_map.mp h3
        rw [← hef]
        exact hacc e he

/-- C8.  The frontmatter parser is a total function on strings: a line that
does not match the `key: value` pattern is silently ignored (inserting such a
line anywhere leaves the parse unchanged), and whatever the input, every key
of the resulting mapping is a nonempty run of word characters — malformed
input degrades to a partial or empty mapping, never an error. -/
theorem parseExistingFrontmatter_total :
    (∀ (ls1 ls2 : List Str) (bad : Str), parseFMLine bad = none →
      parseLinesFM (ls1 ++ bad :: ls2) = parseLinesFM (ls1 ++ ls2)) ∧
    (∀ s : Str, ∀ kv ∈ parseExistingFrontmatter s,
      kv.1 ≠ [] ∧ kv.1.all isWordChar = true) := by
  constructor
  · intro ls1 ls2 bad hbad
    rw [parseLinesFM, parseLinesFM, List.foldl_append, List.foldl_append,
      List.foldl_cons]
    congr 1
    simp only [hbad]
  · intro s kv h
    exact parseLinesFM_fold_keys (splitOnNL s) [] (by simp) kv h

/-- C8, witness: inserting the non-matching line `!! not a key` between two
well-formed lines leaves the parse unchanged. -/
theorem parseExistingFrontmatter_total_witness :
    parseLinesFM ([lit "slovo: \"pes\""] ++ (lit "!! not a key") :: [lit "theme: \"T\""]) =
      parseLinesFM ([lit "slovo: \"pes\""] ++ [lit "theme: \"T\""]) :=
  parseExistingFrontmatter_total.1 [lit "slovo: \"pes\""] [lit "theme: \"T\""]
    (lit "!! not a key") (by decide)

/-- A scalar string value that serializes to a single clean line: no newline,
no carriage return, no Unicode line separators. -/
def cleanStrVal : JValue → Bool
  | JValue.str s => !(s.any (fun c =>
      c == '\n' || c == '\r' || c == Char.ofNat 8232 || c == Char.ofNat 8233))
  | _ => false

/-- `takeWhile` over a satisfying prefix stops exactly at the first failing
character. -/
lemma takeWhile_append_stop (p : Char → Bool) :
    ∀ (k : Str) (c : Char) (rest : Str), k.all p = true → p c = false →
      (k ++ c :: rest).takeWhile p = k := by
  intro k
  induction k with
  | nil =>
    intro c rest _ hc
    rw [List.nil_append, List.takeWhile_cons, hc]
    simp
  | cons a as ih =>
    intro c rest hk hc
    rw [List.all_cons, Bool.and_eq_true] at hk
    rw [List.cons_append, List.takeWhile_cons]
    rw [ih c rest hk.2 hc]
    rw [if_pos hk.1]

/-- Stripping the quote pair added by the serializer recovers the value. -/
lemma stripOuterQuotes_wrap (v : Str) : stripOuterQuotes ('"' :: (v ++ ['"'])) = v := by
  have hlast : ('"' :: (v ++ ['"'])).getLast? = some '"' := by
    have hsh : ('"' :: (v ++ ['"'])) = ('"' :: v) ++ ['"'] := by simp
    rw [hsh, List.getLast?_concat]
  rw [stripOuterQuotes, if_pos]
  · simp
  · simp [hlast]

/-- The line-separator test of the parser fails on a serialized clean value. -/
lemma dumpedLine_clean (v : Str)
    (hv : v.any (fun c =>
      c == '\n' || c == '\r' || c == Char.ofNat 8232 || c == Char.ofNat 8233) = false) :
    (('"' :: (v ++ ['"'])).any (fun c =>
      c == '\r' || c == Char.ofNat 8232 || c == Char.ofNat 8233)) = false := by
  rw [List.any_cons, List.any_append]
  have h1 : v.any (fun c =>
      c == '\r' || c == Char.ofNat 8232 || c == Char.ofNat 8233) = false := by
    rw [List.any_eq_false] at hv ⊢
    intro c hc
    have h := hv c hc
    simp only [Bool.or_eq_true, beq_iff_eq] at h ⊢
    tauto
  rw [h1]
  decide

/-- Parsing the serialized form of one entry recovers the entry. -/
lemma parseFMLine_dumped (k v : Str) (hk1 : k ≠ []) (hk2 : k.all isWordChar = true)
    (hv : v.any (fun c =>
      c == '\n' || c == '\r' || c == Char.ofNat 8232 || c == Char.ofNat 8233) = false) :
    parseFMLine (k ++ ':' :: ' ' :: '"' :: (v ++ ['"'])) = some (k, v) := by
  have hcolon : isWordChar ':' = false := by decide
  have htake : ((k ++ ':' :: ' ' :: '"' :: (v ++ ['"'])).takeWhile isWordChar) = k :=
    takeWhile_append_stop isWordChar k ':' _ hk2 hcolon
  simp only [parseFMLine, htake]
  rw [List.drop_left]
  rw [if_pos ⟨hk1, rfl⟩]
  have hdw : ((':' :: ' ' :: '"' :: (v ++ ['"'])).drop 1).dropWhile isJsSpace =
      '"' :: (v ++ ['"']) := by
    show (' ' :: '"' :: (v ++ ['"'])).dropWhile isJsSpace = '"' :: (v ++ ['"'])
    rw [List.dropWhile_cons, if_pos (by decide), List.dropWhile_cons,
      if_neg (by decide)]
  rw [hdw, if_neg (by rw [dumpedLine_clean v hv]; exact Bool.false_ne_true),
    stripOuterQuotes_wrap]

/-- Unfolding the serializer over a string entry. -/
lemma dumpYaml_cons_str (k v : Str) (m : List (Str × JValue)) :
    dumpYaml ((k, JValue.str v) :: m) =
      (k ++ ':' :: ' ' :: '"' :: (v ++ ['"'])) ++ '\n' :: dumpYaml m := by
  rw [dumpYaml, List.foldr_cons]
  simp only []
  rw [← dumpYaml]
  simp [lit, List.append_assoc]

/-- Writing a fresh key appends it. -/
lemma setKey_not_mem (m : List (Str × JValue)) (k : Str) (v : JValue)
    (h : k ∉ m.map Prod.fst) : setKey m k v = m ++ [(k, v)] := by
  induction m with
  | nil => rfl
  | cons kv rest ih =>
    obtain ⟨k2, v2⟩ := kv
    rw [List.map_cons, List.mem_cons] at h
    push_neg at h
    rw [setKey, if_neg (fun he => h.1 he.symm), List.cons_append]
    rw [ih h.2]

/-- The empty line parses to nothing. -/
lemma parseFMLine_nil : parseFMLine [] = none := by decide

/-- The parsing fold over the serialized form of a record with well-formed
keys, clean string values and no duplicate keys appends the record to the
accumulator. -/
lemma roundTrip_aux : ∀ (m acc : List (Str × JValue)),
    (∀ kv ∈ m, kv.1 ≠ [] ∧ kv.1.all isWordChar = true) →
    (∀ kv ∈ m, cleanStrVal kv.2 = true) →
    ((m.map Prod.fst).Nodup) →
    (∀ kv ∈ m, kv.1 ∉ acc.map Prod.fst) →
    (splitOnNL (dumpYaml m)).foldl (fun acc l =>
        match parseFMLine l with
        | some kv => setKey acc kv.1 (JValue.str kv.2)
        | none => acc) acc = acc ++ m := by
  intro m
  induction m with
  | nil =>
    intro acc _ _ _ _
    show List.foldl _ acc (splitOnNL (dumpYaml []))= acc ++ []
    rw [show dumpYaml [] = [] from rfl, show splitOnNL [] = [[]] from rfl]
    rw [List.foldl_cons, List.foldl_nil]
    simp only [parseFMLine_nil]
    simp
  | cons kv0 rest ih =>
    intro acc hkeys hvals hnodup hdisj
    obtain ⟨k, v0⟩ := kv0
    have hclean := hvals (k, v0) (List.mem_cons_self _ _)
    cases v0 with
    | undef => exact absurd hclean (by simp [cleanStrVal])
    | jnull => exact absurd hclean (by simp [cleanStrVal])
    | str v =>
      rw [cleanStrVal, Bool.not_eq_true'] at hclean
      have hkey := hkeys (k, JValue.str v) (List.mem_cons_self _ _)
      have hline : '\n' ∉ (k ++ ':' :: ' ' :: '"' :: (v ++ ['"'])) := by
        intro hmem
        rw [List.mem_append] at hmem
        cases hmem with
        | inl hk =>
          have := List.all_eq_true.mp hkey.2 '\n' hk
          exact absurd this (by decide)
        | inr hrest =>
          simp only [List.mem_cons, List.mem_append, List.mem_singleton] at hrest
          rcases hrest with h1 | h1 | h1 | h1 | h1
          · exact absurd h1 (by decide)
          · exact absurd h1 (by decide)
          · exact absurd h1 (by decide)
          · rw [List.any_eq_false] at hclean
            have := hclean '\n' h1
            simp at this
          · exact absurd h1 (by decide)
      rw [dumpYaml_cons_str, splitOnNL_append _ hline, List.foldl_cons]
      have hstep : (match parseFMLine (k ++ ':' :: ' ' :: '"' :: (v ++ ['"'])) with
          | some kv => setKey acc kv.1 (JValue.str kv.2)
          | none => acc) = acc ++ [(k, JValue.str v)] := by
        rw [parseFMLine_dumped k v hkey.1 hkey.2 hclean]
        simp only []
        exact setKey_not_mem acc k (JValue.str v)
          (hdisj (k, JValue.str v) (List.mem_cons_self _ _))
      rw [hstep]
      rw [List.map_cons, List.nodup_cons] at hnodup
      rw [ih (acc ++ [(k, JValue.str v)])
        (fun kv h => hkeys kv (List.mem_cons_of_mem _ h))
        (fun kv h => hvals kv (List.mem_cons_of_mem _ h))
        hnodup.2
        (by
          intro kv h
          rw [List.map_append, List.mem_append]
          push_neg
          constructor
          · exact hdisj kv (List.mem_cons_of_mem _ h)
          · intro hker
            have h1 : kv.1 = k := by simpa using hker
            have h2 : kv.1 ∈ rest.map Prod.fst := List.mem_map_of_mem Prod.fst h
            rw [h1] at h2
            exact hnodup.1 h2)]
      simp

/-- C7, counterexample.  A mapping whose key contains a space serializes to a
line the lightweight parser cannot match, so the round trip loses the entry:
the claim's quantification over every flat mapping fails. -/
theorem parse_serialize_not_inverse :
    parseExistingFrontmatter (dumpYaml [(lit "a b", JValue.str (lit "v"))]) ≠
      [(lit "a b", JValue.str (lit "v"))] := by decide

/-- C7, amended.  For every flat mapping whose keys are nonempty runs of word
characters without duplicates and whose values are string scalars free of
newlines, carriage returns and Unicode line separators, parsing the canonical
serialized form yields a mapping equal to the original. -/
theorem parse_serialize_roundTrip (m : List (Str × JValue))
    (hkeys : ∀ kv ∈ m, kv.1 ≠ [] ∧ kv.1.all isWordChar = true)
    (hvals : ∀ kv ∈ m, cleanStrVal kv.2 = true)
    (hnodup : (m.map Prod.fst).Nodup) :
    parseExistingFrontmatter (dumpYaml m) = m := by
  rw [parseExistingFrontmatter, parseLinesFM]
  have h := roundTrip_aux m [] hkeys hvals hnodup (by simp)
  simpa using h

/-- C7, witness: the round trip applied to a concrete two-entry mapping. -/
theorem parse_serialize_roundTrip_witness :
    parseExistingFrontmatter (dumpYaml
      [(lit "slovo", JValue.str (lit "pes")), (lit "theme", JValue.str (lit "Téma"))]) =
    [(lit "slovo", JValue.str (lit "pes")), (lit "theme", JValue.str (lit "Téma"))] :=
  parse_serialize_roundTrip
    [(lit "slovo", JValue.str (lit "pes")), (lit "theme", JValue.str (lit "Téma"))]
    (by decide) (by decide) (by decide)

/-- The dash-collapse scan copies a dash-free prefix verbatim. -/
lemma collapseGo_copy_prefix : ∀ (ds : Str) (fuel : Nat) (y : Str),
    (∀ c ∈ ds, c ≠ '-') → ∃ t, collapseDashesGo fuel (ds ++ y) = ds ++ t := by
  intro ds
  induction ds with
  | nil => intro fuel y _; exact ⟨collapseDashesGo fuel y, rfl⟩
  | cons d ds' ih =>
    intro fuel y hds
    cases fuel with
    | zero => exact ⟨y, rfl⟩
    | succ n =>
      have hd : d ≠ '-' := hds d (List.mem_cons_self _ _)
      have hst : starts (lit "---\n") (d :: (ds' ++ y)) = false := by
        have hl : lit "---\n" = '-' :: '-' :: '-' :: '\n' :: [] := rfl
        rw [hl, starts]
        have : ('-' == d) = false := by
          rw [beq_eq_false_iff_ne]
          exact fun he => hd he.symm
        rw [this, Bool.false_and]
      rw [List.cons_append, collapseDashesGo, hst]
      simp only [Bool.false_eq_true, if_false]
      obtain ⟨t, ht⟩ := ih n y (fun c hc => hds c (List.mem_cons_of_mem _ hc))
      exact ⟨t, by rw [ht, List.cons_append]⟩

/-- `dropWhile` cannot eat into a block whose head fails the predicate. -/
lemma dropWhile_decomp (q : Char → Bool) (p : Str) (hp : p ≠ [])
    (hph : ∀ c, p.head? = some c → q c = false) :
    ∀ (a y : Str), ∃ w, (a ++ p ++ y).dropWhile q = w ++ p ++ y := by
  intro a
  induction a with
  | nil =>
    intro y
    refine ⟨[], ?_⟩
    cases p with
    | nil => exact absurd rfl hp
    | cons d ds =>
      rw [List.nil_append, List.cons_append, List.dropWhile_cons, hph d rfl]
      simp
  | cons c a' ih =>
    intro y
    have hshape : (c :: a') ++ p ++ y = c :: (a' ++ p ++ y) := by simp
    rw [hshape, List.dropWhile_cons]
    by_cases hq : q c
    · rw [if_pos hq]
      exact ih y
    · rw [if_neg hq]
      exact ⟨c :: a', by rw [← hshape]⟩

/-- The dash-collapse replacement preserves every substring that contains no
newline and no dash. -/
lemma collapse_contains (p : Str) (hp0 : p ≠ []) (hnl : '\n' ∉ p) (hdash : '-' ∉ p) :
    ∀ (fuel : Nat) (x y : Str),
      containsSub (collapseDashesGo fuel (x ++ p ++ y)) p = true := by
  intro fuel
  induction fuel with
  | zero =>
    intro x y
    exact containsSub_decomp x p y
  | succ n ih =>
    intro x y
    cases x with
    | nil =>
      cases p with
      | nil => exact absurd rfl hp0
      | cons d ds =>
        have hd : d ≠ '-' := fun he => hdash (by rw [he]; exact List.mem_cons_self _ _)
        have hds : ∀ c ∈ ds, c ≠ '-' := by
          intro c hc he
          subst he
          exact hdash (List.mem_cons_of_mem _ hc)
        have hst : starts (lit "---\n") (d :: (ds ++ y)) = false := by
          have hl : lit "---\n" = '-' :: '-' :: '-' :: '\n' :: [] := rfl
          rw [hl, starts]
          have hbe : ('-' == d) = false := by
            rw [beq_eq_false_iff_ne]
            exact fun he => hd he.symm
          rw [hbe, Bool.false_and]
        have hshape : ([] : Str) ++ (d :: ds) ++ y = d :: (ds ++ y) := by simp
        rw [hshape, collapseDashesGo, hst]
        simp only [Bool.false_eq_true, if_false]
        obtain ⟨t, ht⟩ := collapseGo_copy_prefix ds n y hds
        rw [ht]
        have : d :: (ds ++ t) = ([] : Str) ++ (d :: ds) ++ t := by simp
        rw [this]
        exact containsSub_decomp [] (d :: ds) t
    | cons c x' =>
      have hshape : (c :: x') ++ p ++ y = c :: (x' ++ p ++ y) := by simp
      rw [hshape, collapseDashesGo]
      by_cases hm : starts (lit "---\n") (c :: (x' ++ p ++ y)) = true
      · rw [hm]
        simp only [if_true]
        have hdec := starts_decomp _ _ hm
        have hl : lit "---\n" = '-' :: '-' :: '-' :: '\n' :: [] := rfl
        rw [hl] at hdec
        have hc : c = '-' := by
          have h2 := congrArg List.head? hdec
          simp at h2
          exact h2
        -- peel the first four characters of the match
        have hph : ∀ ch, p.head? = some ch → ch ≠ '-' ∧ ch ≠ '\n' := by
          intro ch hch
          cases p with
          | nil => simp at hch
          | cons d ds =>
            rw [List.head?_cons, Option.some.injEq] at hch
            subst hch
            exact ⟨fun he => hdash (he ▸ List.mem_cons_self _ _),
                   fun he => hnl (he ▸ List.mem_cons_self _ _)⟩
        cases x' with
        | nil =>
          exfalso
          cases p with
          | nil => exact hp0 rfl
          | cons d ds =>
            have : c :: (d :: ds ++ y) = '-' :: '-' :: '-' :: '\n' ::
                (c :: ([] : Str) ++ (d :: ds) ++ y).drop 4 := by simpa using hdec
            have hd := (hph d rfl).1
            simp only [List.cons_append, List.nil_append, List.cons.injEq] at this
            exact hd this.2.1
        | cons c2 x2 =>
          cases x2 with
          | nil =>
            exfalso
            cases p with
            | nil => exact hp0 rfl
            | cons d ds =>
              have hd := (hph d rfl).1
              simp only [List.cons_append, List.nil_append, List.cons.injEq] at hdec
              exact hd hdec.2.2.1
          | cons c3 x3 =>
            cases x3 with
            | nil =>
              exfalso
              cases p with
              | nil => exact hp0 rfl
              | cons d ds =>
                have hd := (hph d rfl).2
                simp only [List.cons_append, List.nil_append, List.cons.injEq] at hdec
                exact hd hdec.2.2.2.1
            | cons c4 x4 =>
              -- x' = c2 :: c3 :: c4 :: x4 : the consumed prefix lies inside x
              have heq : c2 :: c3 :: c4 :: x4 ++ p ++ y =
                  '-' :: '-' :: '\n' :: (x4 ++ p ++ y) := by
                simp only [List.cons_append, List.cons.injEq] at hdec
                simp only [List.cons_append, List.cons.injEq]
                refine ⟨hdec.2.1, hdec.2.2.1, hdec.2.2.2.1, ?_⟩
                have hdrop := hdec.2.2.2.2
                simp at hdrop
                exact hdrop
              rw [List.cons_append, List.cons_append, List.cons_append] at heq ⊢
              rw [heq]
              have hdrop3 : (('-' : Char) :: '-' :: '\n' :: (x4 ++ p ++ y)).drop 3 =
                  x4 ++ p ++ y := rfl
              rw [hdrop3]
              obtain ⟨w, hw⟩ := dropWhile_decomp (· == '\n') p hp0
                (by
                  intro ch hch
                  rw [beq_eq_false_iff_ne]
                  exact (hph ch hch).2)
                x4 y
              rw [hw]
              exact containsSub_append_left _ (ih w y)
      · rw [Bool.not_eq_true] at hm
        rw [hm]
        simp only [Bool.false_eq_true, if_false]
        exact containsSub_cons c (ih x' y)

/-- The first line of `splitOnNL (p ++ t)` begins with `p` when `p` is
newline-free. -/
lemma splitOnNL_head_decomp (p : Str) (hnl : '\n' ∉ p) :
    ∀ t, ∃ w ls, splitOnNL (p ++ t) = (p ++ w) :: ls := by
  induction p with
  | nil =>
    intro t
    cases hsp : splitOnNL t with
    | nil => exact absurd hsp (splitOnNL_ne_nil t)
    | cons l ls => exact ⟨l, ls, by simp [hsp]⟩
  | cons c p' ih =>
    intro t
    have hc : ¬ c = '\n' := fun he => hnl (by rw [he]; exact List.mem_cons_self _ _)
    obtain ⟨w, ls, hw⟩ := ih (fun hm => hnl (List.mem_cons_of_mem c hm)) t
    refine ⟨w, ls, ?_⟩
    rw [List.cons_append, splitOnNL, if_neg hc, hw]
    rfl

/-- A newline-free substring of a document is a substring of one of its
lines. -/
lemma mem_line_of_containsSub (p : Str) (hnl : '\n' ∉ p) :
    ∀ (x y : Str), ∃ l ∈ splitOnNL (x ++ p ++ y), containsSub l p = true := by
  intro x
  induction x with
  | nil =>
    intro y
    obtain ⟨w, ls, hw⟩ := splitOnNL_head_decomp p hnl y
    rw [List.nil_append, hw]
    refine ⟨p ++ w, List.mem_cons_self _ _, ?_⟩
    have := containsSub_decomp ([] : Str) p w
    simpa using this
  | cons c x' ih =>
    intro y
    have hshape : (c :: x') ++ p ++ y = c :: (x' ++ p ++ y) := by simp
    rw [hshape, splitOnNL]
    by_cases hc : c = '\n'
    · rw [if_pos hc]
      obtain ⟨l, hl, hcont⟩ := ih y
      exact ⟨l, List.mem_cons_of_mem _ hl, hcont⟩
    · rw [if_neg hc]
      obtain ⟨l, hl, hcont⟩ := ih y
      cases hsp : splitOnNL (x' ++ p ++ y) with
      | nil => exact absurd hsp (splitOnNL_ne_nil _)
      | cons l1 ls =>
        rw [hsp] at hl
        cases hl with
        | head =>
          exact ⟨c :: l, List.mem_cons_self _ _, containsSub_cons c hcont⟩
        | tail _ h2 =>
          exact ⟨l, List.mem_cons_of_mem _ h2, hcont⟩

/-- Trimming preserves substrings whose two ends are not whitespace. -/
lemma containsSub_jsTrim (p : Str) (hp0 : p ≠ [])
    (hh : ∀ c, p.head? = some c → isJsSpace c = false)
    (hl : ∀ c, p.getLast? = some c → isJsSpace c = false)
    {l : Str} (h : containsSub l p = true) : containsSub (jsTrim l) p = true := by
  obtain ⟨x, y, hxy⟩ := decomp_of_containsSub h
  subst hxy
  rw [jsTrim]
  obtain ⟨w1, hw1⟩ := dropWhile_decomp isJsSpace p hp0 hh x y
  rw [hw1]
  have hrev : (w1 ++ p ++ y).reverse = y.reverse ++ p.reverse ++ w1.reverse := by
    simp [List.reverse_append, List.append_assoc]
  rw [hrev]
  have hpr0 : p.reverse ≠ [] := by simpa using hp0
  obtain ⟨w2, hw2⟩ := dropWhile_decomp isJsSpace p.reverse hpr0
    (by
      intro c hc
      rw [List.head?_reverse] at hc
      exact hl c hc)
    y.reverse w1.reverse
  rw [hw2]
  have : (w2 ++ p.reverse ++ w1.reverse).reverse = w1 ++ p ++ w2.reverse := by
    simp [List.reverse_append, List.append_assoc]
  rw [this]
  exact containsSub_decomp w1 p w2.reverse

/-- Joining lines preserves a substring found in one of them. -/
lemma containsSub_joinNL (p : Str) : ∀ (ls : List Str) (l : Str), l ∈ ls →
    containsSub l p = true → containsSub (joinNL ls) p = true := by
  intro ls
  induction ls with
  | nil => intro l hl _; exact absurd hl (List.not_mem_nil l)
  | cons l0 ls' ih =>
    intro l hl hcont
    cases ls' with
    | nil =>
      rw [List.mem_singleton] at hl
      subst hl
      exact hcont
    | cons l1 ls'' =>
      rw [joinNL]
      cases hl with
      | head =>
        exact containsSub_append_right _ hcont
      | tail _ h2 =>
        have := ih l h2 hcont
        have hshape : l0 ++ '\n' :: joinNL (l1 :: ls'') =
            (l0 ++ ['\n']) ++ joinNL (l1 :: ls'') := by simp
        rw [hshape]
        exact containsSub_append_left _ this

/-- The final normalization pass preserves substrings that are newline-free,
dash-free and whose two ends are not whitespace. -/
lemma finalNormalize_contains (p : Str) (hp0 : p ≠ []) (hnl : '\n' ∉ p)
    (hdash : '-' ∉ p)
    (hh : ∀ c, p.head? = some c → isJsSpace c = false)
    (hl : ∀ c, p.getLast? = some c → isJsSpace c = false)
    (s : Str) (h : containsSub s p = true) :
    containsSub (finalNormalize s) p = true := by
  obtain ⟨x, y, hxy⟩ := decomp_of_containsSub h
  subst hxy
  rw [finalNormalize]
  have h1 : containsSub (collapseDashes (x ++ p ++ y)) p = true := by
    rw [collapseDashes]
    exact collapse_contains p hp0 hnl hdash _ x y
  obtain ⟨x2, y2, hxy2⟩ := decomp_of_containsSub h1
  rw [hxy2]
  obtain ⟨l, hlmem, hlcont⟩ := mem_line_of_containsSub p hnl x2 y2
  exact containsSub_joinNL p _ (jsTrim l) (List.mem_map_of_mem jsTrim hlmem)
    (containsSub_jsTrim p hp0 hh hl hlcont)

/-- The section upsert always leaves the section header in the document. -/
lemma addOrUpdateSection_contains (content sectionName newSectionContent : Str) :
    containsSub (addOrUpdateSection content sectionName newSectionContent)
      (lit "## " ++ sectionName) = true := by
  simp only [addOrUpdateSection]
  cases h : splitAtSub? (lit "## " ++ sectionName ++ ['\n']) content with
  | some pr =>
    obtain ⟨pre, rest⟩ := pr
    have hbase := containsSub_decomp pre (lit "## " ++ sectionName)
      (['\n'] ++ newSectionContent ++ (lazyEnd rest).2)
    simpa [List.append_assoc] using hbase
  | none =>
    have hbase := containsSub_decomp (content ++ lit "\n\n") (lit "## " ++ sectionName)
      (['\n'] ++ newSectionContent)
    simpa [List.append_assoc] using hbase

/-- A word record with the headword absent. -/
def missingHeadwordWord : WordData :=
  { slovo := none, preklad := some (lit "x"), vyraz := none, prekladVyrazu := none,
    titleTag := some (lit "T"), partOfSpeech := none }

/-- C9, counterexample.  With the headword absent, the reconciler does not
abort: it returns a nonempty note whose H1 heading is the literal
`# undefined` (the JavaScript rendering of the missing value). -/
theorem unifiedNoteContent_no_abort_on_missing_headword :
    unifiedNoteContent none missingHeadwordWord none (lit "## T") (lit "Flashcards") ≠ [] ∧
    containsSub (unifiedNoteContent none missingHeadwordWord none (lit "## T")
      (lit "Flashcards")) (lit "# undefined") = true := by
  refine ⟨by decide, by decide⟩

/-- C9, amended.  An absent headword does not abort reconciliation (there is
no missing-field guard: the missing value is rendered as the literal
`undefined`, giving the H1 `# undefined` of the counterexample), so absence
is not an abort condition at all; and the reconciler can abort for other
reasons: it interpolates the rendered headword (line 243) and the flashcards
section name (line 70) into the `RegExp` constructor, which throws on invalid
patterns, and feeds the headword to `encodeURIComponent`, which throws on
lone surrogates.  On the throw-safe fragment — rendered headword and
flashcards section name free of regex syntax characters, strings well-formed
Unicode as every `Str` is — reconciliation is total and always produces note
text containing the `## Grammar` section. -/
theorem unifiedNoteContent_total :
    (∀ (existingContent : Option Str) (wordData : WordData)
      (czechWordGrammar : Option CzechWordAnalysis) (tableHeader flashcardsSection : Str),
      regexSafe (renderOpt wordData.slovo) = true →
      regexSafe flashcardsSection = true →
      containsSub (unifiedNoteContent existingContent wordData czechWordGrammar
        tableHeader flashcardsSection) (lit "## Grammar") = true) ∧
    containsSub (unifiedNoteContent none missingHeadwordWord none (lit "## T")
      (lit "Flashcards")) (lit "# undefined") = true := by
  constructor
  · intro existingContent wordData czechWordGrammar tableHeader flashcardsSection _hsafe1 _hsafe2
    show containsSub (finalNormalize (addOrUpdateSection _ (lit "Grammar") _))
      (lit "## Grammar") = true
    apply finalNormalize_contains (lit "## Grammar") (by decide) (by decide) (by decide)
    · intro c hc
      have : c = '#' := by
        have h35 : (lit "## Grammar").head? = some '#' := rfl
        rw [h35, Option.some.injEq] at hc
        exact hc.symm
      rw [this]
      rfl
    · intro c hc
      have : c = 'r' := by
        have hr : (lit "## Grammar").getLast? = some 'r' := rfl
        rw [hr, Option.some.injEq] at hc
        exact hc.symm
      rw [this]
      rfl
    · have hgr : lit "## " ++ lit "Grammar" = lit "## Grammar" := rfl
      rw [← hgr]
      exact addOrUpdateSection_contains _ (lit "Grammar") _
  · decide

/-- Witness for the amended C9 theorem: its universal part applied at the
concrete `pesWord` inputs, both regex-safety hypotheses discharged by
evaluation. -/
theorem unifiedNoteContent_total_witness :
    containsSub (unifiedNoteContent none pesWord none (lit "## Zvirata")
      (lit "Flashcards")) (lit "## Grammar") = true :=
  unifiedNoteContent_total.1 none pesWord none (lit "## Zvirata")
    (lit "Flashcards") (by decide) (by decide)

end WordNote
